import Mathlib

/-!
Shallow embedding of the ViTFOX parametric-mask layout engine
(`config.py`, `geometry.py`, `features.py`, `components.py`, `build_mask.py`).

Coordinates are rationals (the Python code works with floats that here only
ever undergo field arithmetic).  Fallible Python functions (those that raise
`ValueError` / crash with an undefined name) are embedded as `Except String`.
Geometry produced by the external gdstk kernel is modelled symbolically: a
polygon is its vertex list, a stroked path is its point list plus width, text
rasterisation is an opaque constructor carrying its parameters, and boolean
differences are a syntactic node (the claims never depend on the kernel's
polygon clipping itself).
-/

/-! ### config.py -/

/-- `config.UVL`, the coarse (UV-lithography) clearance. -/
def UVL : ℚ := 2

/-- `config.EBL`, the fine (e-beam) clearance, `0.05`. -/
def EBL : ℚ := 1/20

/-- `config.wire_width`. -/
def wire_width : ℚ := 3

/-- `config.boundary_width`. -/
def boundary_width : ℚ := 1

/-- `config.pad_device_spacing`. -/
def pad_device_spacing : ℚ := 10

/-- Layer post-processing mode (third component of a `config.layers` entry). -/
inductive LMode where
  | fill
  | boundary
deriving DecidableEq, Repr

/-- The layer table of `config.py` / `build_mask.py` (both declare the same
mapping), in Python dict insertion order. -/
def layersList : List (String × Nat × Nat × LMode) :=
  [("M0", 0, 0, .fill),
   ("M1", 1, 0, .fill),
   ("M2", 11, 0, .boundary),
   ("W1", 10, 0, .boundary),
   ("W2", 11, 0, .boundary),
   ("V1", 21, 0, .fill),
   ("V2", 22, 0, .fill),
   ("V3", 23, 0, .fill),
   ("V4", 24, 0, .fill),
   ("label", 50, 0, .fill)]

/-- `config.layers[name][:2]`, the physical (layer, datatype) pair of a logical
layer name.  Python raises `KeyError` on an unknown name; all call sites in the
sources use literal keys present in the table, so the default is never hit. -/
def layersLD (s : String) : Nat × Nat :=
  ((layersList.find? (fun e => e.1 == s)).map (fun e => (e.2.1, e.2.2.1))).getD (0, 0)

/-! ### geometry.py -/

/-- A point in the plane (microns). -/
abbrev Point : Type := ℚ × ℚ

/-- `geometry.octagon`: the eight vertices, verbatim from the source
(`y` and `ratio_y` defaults are made explicit at call sites). -/
def octagon (x y : ℚ) (origin : Point) (ratio_x ratio_y : ℚ) : List Point :=
  [(origin.1 + 2*x*ratio_x, origin.2 + y/2),
   (origin.1 + x/2,         origin.2 + 2*y*ratio_y),
   (origin.1 + x/2,         origin.2 - 2*y*ratio_y),
   (origin.1 + 2*x*ratio_x, origin.2 - y/2),
   (origin.1 - 2*x*ratio_x, origin.2 - y/2),
   (origin.1 - x/2,         origin.2 - 2*y*ratio_y),
   (origin.1 - x/2,         origin.2 + 2*y*ratio_y),
   (origin.1 - 2*x*ratio_x, origin.2 + y/2)]

/-- Vertices of `gdstk.rectangle(p1, p2)`. -/
def rectVerts (p1 p2 : Point) : List Point :=
  [(p1.1, p1.2), (p2.1, p1.2), (p2.1, p2.2), (p1.1, p2.2)]

/-- `geometry.rectangle`: rectangle of shape `(x, y)` centred on `origin`. -/
def rectangle (x y : ℚ) (origin : Point) : List Point :=
  rectVerts (origin.1 - x/2, origin.2 - y/2) (origin.1 + x/2, origin.2 + y/2)

/-- `geometry.route_90deg`.  Returns the three points `[c0, corner, c1]`, or
fails on an unknown method string (Python raises `ValueError`). -/
def route_90deg (c0 c1 : Point) (method : String) : Except String (List Point) :=
  match method with
  | "-|" => .ok [c0, (c1.1, c0.2), c1]
  | "|-" => .ok [c0, (c0.1, c1.2), c1]
  | _ => .error ("Unknown routing method " ++ method ++ ".")

/-- Symbolic geometry produced by the gdstk kernel. -/
inductive Geom where
  /-- A polygon given by its vertices. -/
  | poly (verts : List Point)
  /-- A `gdstk.FlexPath` through `pts` of the given width. -/
  | path (pts : List Point) (width : ℚ)
  /-- Rasterised text (`gdstk.text` via `features.make_label`), kept opaque. -/
  | textG (text : String) (size : ℚ) (origin : Point) (vertical : Bool)
  /-- `gdstk.boolean(a, b, "not")`, kept as a syntactic difference node. -/
  | diff (a b : Geom)
deriving DecidableEq, Repr

/-- A shape tagged with its physical layer and datatype
(`geometry.set_layer_datatype` applied at construction). -/
structure Shape where
  geom : Geom
  layer : Nat
  datatype : Nat
deriving DecidableEq, Repr

/-- Octagon shape helper: `geom.octagon(size_x, size_y, origin)` with the
default cut ratios `1/6`, placed on layer `ld`. -/
def octS (x y : ℚ) (o : Point) (ld : Nat × Nat) : Shape :=
  ⟨.poly (octagon x y o (1/6) (1/6)), ld.1, ld.2⟩

/-! ### Bounding boxes

`gdstk`'s `bounding_box()` is modelled on the symbolic geometry: for a polygon
or path it is exact; for a difference node we use the bounding box of the base
polygon (the box of `a \ b` is contained in the box of `a`; no claim below
relies on the box of a difference node being tight); opaque text has no
modelled box. -/

/-- Componentwise minimum of two points. -/
def pmin (p q : Point) : Point := (min p.1 q.1, min p.2 q.2)

/-- Componentwise maximum of two points. -/
def pmax (p q : Point) : Point := (max p.1 q.1, max p.2 q.2)

/-- Bounding box `(lower-left, upper-right)` of a vertex list. -/
def polyBBox : List Point → Option (Point × Point)
  | [] => none
  | p :: ps => some (ps.foldl (fun acc q => (pmin acc.1 q, pmax acc.2 q)) (p, p))

/-- Bounding box of a symbolic geometry. -/
def geomBBox : Geom → Option (Point × Point)
  | .poly vs => polyBBox vs
  | .path pts w => (polyBBox pts).map (fun bb => ((bb.1.1, bb.1.2 - w/2), (bb.2.1, bb.2.2 + w/2)))
  | .textG _ _ _ _ => none
  | .diff a _ => geomBBox a

/-- Union of two optional bounding boxes. -/
def mergeBB : Option (Point × Point) → Option (Point × Point) → Option (Point × Point)
  | some a, some b => some (pmin a.1 b.1, pmax a.2 b.2)
  | none, b => b
  | a, none => a

/-- Bounding box of a list of shapes (the box of a cell with no references). -/
def shapesBBox (shapes : List Shape) : Option (Point × Point) :=
  shapes.foldl (fun acc s => mergeBB acc (geomBBox s.geom)) none

/-! ### Orientation tests (used to state polygon validity for `octagon`) -/

/-- Twice the signed area of the triangle `p q r`; negative iff `p q r` turns
clockwise. -/
def orient (p q r : Point) : ℚ :=
  (q.1 - p.1) * (r.2 - p.2) - (q.2 - p.2) * (r.1 - p.1)

/-- Segments `p q` and `r s` cross properly (in one interior point of each). -/
def properCross (p q r s : Point) : Prop :=
  orient p q r * orient p q s < 0 ∧ orient r s p * orient r s q < 0

instance (p q r s : Point) : Decidable (properCross p q r s) := by
  unfold properCross; infer_instance

/-- Every three consecutive points of the list turn strictly clockwise. -/
def chainCW : List Point → Prop
  | p :: q :: r :: rest => orient p q r < 0 ∧ chainCW (q :: r :: rest)
  | _ => True

/-- The closed vertex cycle of `vs` turns strictly clockwise at every vertex
(consecutive triples, wrapping around).  A strictly convex vertex cycle bounds
a simple polygon. -/
def convexCW (vs : List Point) : Prop :=
  match vs with
  | p :: q :: _ => chainCW (vs ++ [p, q])
  | _ => True

/-! ## Claim C5: the orthogonal router -/

/-- C5. `route_90deg(p0, p1, mode)` returns exactly `[p0, corner, p1]` with
`corner = (p1.x, p0.y)` for the horizontal-then-vertical mode `"-|"` and
`corner = (p0.x, p1.y)` for the vertical-then-horizontal mode `"|-"`; any
other mode string fails.  The two success equations hold for all points, in
particular for degenerate inputs sharing an axis (including `p0 = p1`), which
are therefore never rejected. -/
theorem route_90deg_spec (p0 p1 : Point) :
    route_90deg p0 p1 "-|" = .ok [p0, (p1.1, p0.2), p1] ∧
    route_90deg p0 p1 "|-" = .ok [p0, (p0.1, p1.2), p1] ∧
    ∀ m : String, m ≠ "-|" → m ≠ "|-" →
      route_90deg p0 p1 m = .error ("Unknown routing method " ++ m ++ ".") := by
  refine ⟨rfl, rfl, fun m h1 h2 => ?_⟩
  unfold route_90deg
  split
  · exact absurd rfl h1
  · exact absurd rfl h2
  · rfl

/-- Witness for C5 at a concrete degenerate input (`p0 = p1`) and a concrete
unknown mode string. -/
theorem route_90deg_spec_witness :
    route_90deg ((0 : ℚ), (0 : ℚ)) (0, 0) "-|" = .ok [(0, 0), (0, 0), (0, 0)] ∧
    route_90deg ((0 : ℚ), (0 : ℚ)) (0, 0) "x" = .error "Unknown routing method x." := by
  refine ⟨?_, ?_⟩
  · exact (route_90deg_spec (0, 0) (0, 0)).1
  · exact (route_90deg_spec (0, 0) (0, 0)).2.2 "x" (by decide) (by decide)

/-! ## Claim C8: validity of the octagon primitive -/

/-- C8 counterexample.  At width = height = 1, origin (0,0) and corner-cut
fraction `2/5 ∈ (0, 0.5)` the polygon returned by `octagon` is NOT simple:
its edge from vertex 1 to vertex 2 and its edge from vertex 3 to vertex 4 are
non-adjacent and cross properly (at `(1/2, -1/2)`), so the claim that every
fraction in `(0, 0.5)` yields a valid simple polygon is false. -/
theorem octagon_not_simple_at_two_fifths :
    octagon 1 1 (0, 0) (2/5) (2/5) =
      [(4/5, 1/2), (1/2, 4/5), (1/2, -4/5), (4/5, -1/2),
       (-4/5, -1/2), (-1/2, -4/5), (-1/2, 4/5), (-4/5, 1/2)] ∧
    properCross (1/2, 4/5) (1/2, -4/5) (4/5, -1/2) (-4/5, -1/2) := by
  constructor
  · norm_num [octagon]
  · constructor <;> norm_num [orient]

set_option maxHeartbeats 1000000 in
/-- C8 (amended).  For every positive width and height and corner-cut
fractions in the open interval `(0, 1/4)` (rather than the claimed `(0, 0.5)`),
`octagon` returns eight vertices forming a strictly clockwise-convex cycle
(hence a valid simple polygon), every vertex lying on the boundary of the
rectangle of that width and height centred on the origin. -/
theorem octagon_strictly_convex (x y : ℚ) (o : Point) (rx ry : ℚ)
    (hx : 0 < x) (hy : 0 < y)
    (hrx0 : 0 < rx) (hrx : rx < 1/4) (hry0 : 0 < ry) (hry : ry < 1/4) :
    (octagon x y o rx ry).length = 8 ∧
    convexCW (octagon x y o rx ry) ∧
    ∀ p ∈ octagon x y o rx ry,
      (p.1 - o.1 = x/2 ∨ p.1 - o.1 = -(x/2) ∨ p.2 - o.2 = y/2 ∨ p.2 - o.2 = -(y/2)) ∧
      -(x/2) ≤ p.1 - o.1 ∧ p.1 - o.1 ≤ x/2 ∧ -(y/2) ≤ p.2 - o.2 ∧ p.2 - o.2 ≤ y/2 := by
  have hd : 0 < x/2 - 2*x*rx := by nlinarith
  have he : 0 < y/2 - 2*y*ry := by nlinarith
  have ha : 0 < x*rx := mul_pos hx hrx0
  have hb : 0 < y*ry := mul_pos hy hry0
  refine ⟨rfl, ?_, ?_⟩
  · simp only [octagon, convexCW, chainCW, orient, List.cons_append, List.nil_append,
      and_true]
    refine ⟨?_, ?_, ?_, ?_, ?_, ?_, ?_, ?_⟩ <;>
      nlinarith [mul_pos hd hb, mul_pos ha he, mul_pos hd he,
        mul_pos ha hb, mul_pos hd ha, mul_pos he hb]
  · intro p hp
    simp only [octagon, List.mem_cons, List.not_mem_nil, or_false] at hp
    rcases hp with rfl | rfl | rfl | rfl | rfl | rfl | rfl | rfl <;>
        simp only [Prod.fst, Prod.snd] <;>
        refine ⟨?_, by nlinarith, by nlinarith, by nlinarith, by nlinarith⟩ <;>
      first
        | (left; ring1)
        | (right; left; ring1)
        | (right; right; left; ring1)
        | (right; right; right; ring1)

/-- Witness for the amended C8 theorem at the source's default cut ratio
`1/6` and a unit square. -/
theorem octagon_strictly_convex_witness :
    (octagon 1 1 (0, 0) (1/6) (1/6)).length = 8 ∧
    convexCW (octagon 1 1 (0, 0) (1/6) (1/6)) := by
  have h := octagon_strictly_convex 1 1 (0, 0) (1/6) (1/6)
    (by norm_num) (by norm_num) (by norm_num) (by norm_num) (by norm_num) (by norm_num)
  exact ⟨h.1, h.2.1⟩

/-! ### features.py -/

/-- `features.um_to_str`: `int(um*1e3)` — Python `int()` truncates toward
zero. -/
def um_to_str (um : ℚ) : ℤ :=
  if 0 ≤ um then ⌊um * 1000⌋ else ⌈um * 1000⌉

/-- A gdstk `Cell`: a name, local shapes, and references to other cells, each
with a placement origin (translation only). -/
inductive Cell where
  | mk (name : String) (shapes : List Shape) (refs : List (Point × Cell))
deriving Repr

/-- The name of a cell. -/
def Cell.name : Cell → String
  | .mk n _ _ => n

/-- The local shapes of a cell. -/
def Cell.shapes : Cell → List Shape
  | .mk _ s _ => s

/-- The references of a cell. -/
def Cell.refs : Cell → List (Point × Cell)
  | .mk _ _ r => r

/-- `features.make_lower_pad`.  The W1 octagon is created before the size
check (which Python performs only on the `via` branch); the failure is a
`ValueError` ("Pad size too small."). -/
def make_lower_pad (size_x : ℚ) (size_y : Option ℚ) (tol : ℚ) (via : Bool) :
    Except String Cell :=
  let sy := size_y.getD size_x
  let nm := "LowerPad_" ++ toString (um_to_str size_x) ++ "_" ++ toString sy
  let base : List Shape := [octS size_x sy (0, 0) (layersLD "W1")]
  if via then
    if min size_x sy - 4*UVL < tol then
      .error "Pad size too small."
    else
      .ok (.mk nm (base ++
        [octS (size_x - 2*UVL) (sy - 2*UVL) (0, 0) (layersLD "V2"),
         octS (size_x - 2*UVL) (sy - 2*UVL) (0, 0) (layersLD "V4"),
         octS size_x sy (0, 0) (layersLD "W2")]) [])
  else
    .ok (.mk nm base [])

/-- `features.make_upper_pad`. -/
def make_upper_pad (size_x : ℚ) (size_y : Option ℚ) (tol : ℚ) :
    Except String Cell :=
  let sy := size_y.getD size_x
  if min size_x sy < tol then
    .error "Pad size too small."
  else
    .ok (.mk ("UpperPad_" ++ toString (um_to_str size_x) ++ "_" ++ toString sy)
      [octS size_x sy (0, 0) (layersLD "W2")] [])

/-- `features.make_wire`: a fixed-width path on the layer named `level`. -/
def make_wire (points : List Point) (width : ℚ) (level : String) : Shape :=
  ⟨.path points width, (layersLD level).1, (layersLD level).2⟩

/-- `features.make_label`: the glyph polygons produced by the external text
rasteriser (and then re-centred) are modelled as one opaque text shape
carrying all parameters. -/
def make_label (text : String) (size : ℚ) (origin : Point) (vertical : Bool)
    (layer datatype : Nat) : List Shape :=
  [⟨.textG text size origin vertical, layer, datatype⟩]

/-- The name of the device cell built by `features.make_ferro_device`
(`"FerroelectricDevice_M{um_to_str(mesa)}_V{um_to_str(via)}"`, with a
`"_short"` suffix when `short`). -/
def ferroName (mesa_size via_size : ℚ) (short : Bool) : String :=
  "FerroelectricDevice_M" ++ toString (um_to_str mesa_size) ++
    "_V" ++ toString (um_to_str via_size) ++ (if short then "_short" else "")

/-- The shapes added to the device cell by `features.make_ferro_device`, in
`Cell.add` order. `w = device_extent[0]`; the height component is never read
by the source.  Note two quirks of the source kept here: the top wire
`wire_LP_D` is added twice (the bottom-electrode `add` re-uses the variable,
since the rebinding under `bottom_connection != via_centre` never fires), and
`via_FE` itself is never added — it is only subtracted from the ferroelectric
film rectangle. -/
def ferroShapes (mesa_size via_size w : ℚ) (short : Bool) : List Shape :=
  let mesa_centre : Point := (0, 0)
  let mesa_m0 := octS mesa_size mesa_size mesa_centre (layersLD "M0")
  let via_passivation := octS (mesa_size - 2*EBL) (mesa_size - 2*EBL) mesa_centre (layersLD "V3")
  let mesa_m2 := octS (mesa_size + 2*UVL) (mesa_size + 2*UVL) mesa_centre (layersLD "M2")
  let top_connection : Point := (-w/2 + via_size + 4*UVL, 0)
  let wire_LP_D := make_wire [top_connection, mesa_centre] wire_width "M2"
  let via_m2 := octS (via_size + 2*UVL) (via_size + 2*UVL) top_connection (layersLD "M2")
  let via_etchT := octS via_size via_size top_connection (layersLD "V2")
  let via_bot_padT := octS (via_size + 2*UVL) (via_size + 2*UVL) top_connection (layersLD "W1")
  let via_p_bot_padT := octS (via_size + 2*UVL) (via_size + 2*UVL) top_connection (layersLD "V4")
  let via_centre : Point := (w/2 - via_size - 4*UVL, 0)
  let via_FE := octS (via_size + 2*UVL) (via_size + 2*UVL) via_centre (layersLD "V1")
  let via_etchB := octS via_size via_size via_centre (layersLD "V2")
  let mesa_m1 := octS (via_size + 4*UVL) (via_size + 4*UVL) via_centre (layersLD "M1")
  let via_bot_padB := octS (via_size + 2*UVL) (via_size + 2*UVL) via_centre (layersLD "W1")
  let bb0 := (geomBBox mesa_m0.geom).getD ((0, 0), (0, 0))
  let bb1 := (geomBBox mesa_m1.geom).getD ((0, 0), (0, 0))
  let fN := max bb0.2.2 bb1.2.2 + UVL
  let fW := bb0.1.1 - UVL
  let fS := min bb0.1.2 bb1.1.2 - UVL
  let fE := bb1.2.1 + UVL
  let FE : Shape := ⟨.diff (.poly (rectVerts (fW, fS) (fE, fN))) via_FE.geom,
    (layersLD "V1").1, (layersLD "V1").2⟩
  [mesa_m0, via_passivation, mesa_m2,
   via_bot_padT, via_etchT, via_p_bot_padT, wire_LP_D, via_m2,
   via_etchB, mesa_m1, via_bot_padB, wire_LP_D,
   FE] ++
  (if short then [⟨FE.geom, (layersLD "M1").1, (layersLD "M1").2⟩] else [])

/-- `features.make_ferro_device`.  Validates the feasibility inequality
before constructing any geometry (the error branch returns nothing but the
message), and returns the device cell together with the bottom and top
connection points. -/
def make_ferro_device (mesa_size via_size : ℚ) (device_extent : ℚ × ℚ)
    (short : Bool) : Except String (Cell × Point × Point) :=
  if 2*via_size + 8*UVL + mesa_size + 2*UVL > device_extent.1 - 4*UVL then
    .error "Component dimensions exceed device_extent."
  else
    .ok (Cell.mk (ferroName mesa_size via_size short)
          (ferroShapes mesa_size via_size device_extent.1 short) [],
         (device_extent.1/2 - via_size - 4*UVL, 0),
         (-device_extent.1/2 + via_size + 4*UVL, 0))

/-! ## Claim C1: device-stack validation -/

/-- C1. `make_ferro_device` fails (with the dimension error, before any
geometry is built — the error branch of the embedding constructs no cell or
shape) exactly when `2*via_size + 8*UVL + mesa_size + 2*UVL >
device_extent.width - 4*UVL`, and succeeds for every input satisfying the
inequality. -/
theorem make_ferro_device_validation (mesa_size via_size w h : ℚ) (short : Bool) :
    (2*via_size + 8*UVL + mesa_size + 2*UVL > w - 4*UVL →
      make_ferro_device mesa_size via_size (w, h) short =
        .error "Component dimensions exceed device_extent.") ∧
    (2*via_size + 8*UVL + mesa_size + 2*UVL ≤ w - 4*UVL →
      ∃ cell bc tc,
        make_ferro_device mesa_size via_size (w, h) short = .ok (cell, bc, tc)) := by
  constructor
  · intro hgt
    unfold make_ferro_device
    rw [if_pos hgt]
  · intro hle
    unfold make_ferro_device
    rw [if_neg (not_lt.2 hle)]
    exact ⟨_, _, _, rfl⟩

/-- Witness for C1: a violating input fails, a satisfying input succeeds. -/
theorem make_ferro_device_validation_witness :
    make_ferro_device 100 2 (60, 40) false =
      .error "Component dimensions exceed device_extent." ∧
    ∃ cell bc tc, make_ferro_device 20 2 (60, 40) false = .ok (cell, bc, tc) := by
  constructor
  · exact (make_ferro_device_validation 100 2 60 40 false).1 (by norm_num [UVL])
  · exact (make_ferro_device_validation 20 2 60 40 false).2 (by norm_num [UVL])

/-! ## Claim C6: pad size validation -/

/-- C6. With the default `via=True`, `make_lower_pad` fails with the
pad-too-small error exactly when `min(size_x, size_y) - 4*UVL < min_feature`,
and `make_upper_pad` fails with the same error exactly when
`min(size_x, size_y) < min_feature`; otherwise both succeed. -/
theorem pad_size_validation (size_x size_y tol : ℚ) :
    (min size_x size_y - 4*UVL < tol →
      make_lower_pad size_x (some size_y) tol true = .error "Pad size too small.") ∧
    (tol ≤ min size_x size_y - 4*UVL →
      ∃ c, make_lower_pad size_x (some size_y) tol true = .ok c) ∧
    (min size_x size_y < tol →
      make_upper_pad size_x (some size_y) tol = .error "Pad size too small.") ∧
    (tol ≤ min size_x size_y →
      ∃ c, make_upper_pad size_x (some size_y) tol = .ok c) := by
  refine ⟨fun hlt => ?_, fun hle => ?_, fun hlt => ?_, fun hle => ?_⟩
  · simp only [make_lower_pad, Option.getD_some, if_true]
    rw [if_pos hlt]
  · simp only [make_lower_pad, Option.getD_some, if_true]
    rw [if_neg (not_lt.2 hle)]
    exact ⟨_, rfl⟩
  · simp only [make_upper_pad, Option.getD_some]
    rw [if_pos hlt]
  · simp only [make_upper_pad, Option.getD_some]
    rw [if_neg (not_lt.2 hle)]
    exact ⟨_, rfl⟩

/-- Witness for C6 at concrete sizes. -/
theorem pad_size_validation_witness :
    make_lower_pad 30 (some 30) 30 true = .error "Pad size too small." ∧
    (∃ c, make_lower_pad 40 (some 40) 30 true = .ok c) ∧
    make_upper_pad 20 (some 20) 30 = .error "Pad size too small." ∧
    ∃ c, make_upper_pad 30 (some 30) 30 = .ok c := by
  refine ⟨?_, ?_, ?_, ?_⟩
  · exact (pad_size_validation 30 30 30).1 (by norm_num [UVL])
  · exact (pad_size_validation 40 40 30).2.1 (by norm_num [UVL])
  · exact (pad_size_validation 20 20 30).2.2.1 (by norm_num)
  · exact (pad_size_validation 30 30 30).2.2.2 (by norm_num)

/-! ## Claim C10: the device-extent height is never read -/

/-- C10. `make_ferro_device` never reads `device_extent[1]`: two calls
differing only in the height component (any two heights, including zero or
negative) return identical results — same validation outcome, same cell, same
connection points. -/
theorem make_ferro_device_ignores_height (mesa_size via_size w h1 h2 : ℚ)
    (short : Bool) :
    make_ferro_device mesa_size via_size (w, h1) short =
    make_ferro_device mesa_size via_size (w, h2) short := rfl

/-! ### Bounding-box lemmas -/

/-- The running fold of `polyBBox` only widens the accumulator. -/
theorem foldl_bbox_le (ps : List Point) (acc : Point × Point) :
    (ps.foldl (fun a q => (pmin a.1 q, pmax a.2 q)) acc).1.1 ≤ acc.1.1 ∧
    (ps.foldl (fun a q => (pmin a.1 q, pmax a.2 q)) acc).1.2 ≤ acc.1.2 ∧
    acc.2.1 ≤ (ps.foldl (fun a q => (pmin a.1 q, pmax a.2 q)) acc).2.1 ∧
    acc.2.2 ≤ (ps.foldl (fun a q => (pmin a.1 q, pmax a.2 q)) acc).2.2 := by
  induction ps generalizing acc with
  | nil => exact ⟨le_rfl, le_rfl, le_rfl, le_rfl⟩
  | cons q ps ih =>
    simp only [List.foldl_cons]
    obtain ⟨h1, h2, h3, h4⟩ := ih (pmin acc.1 q, pmax acc.2 q)
    exact ⟨le_trans h1 (min_le_left _ _), le_trans h2 (min_le_left _ _),
      le_trans (le_max_left _ _) h3, le_trans (le_max_left _ _) h4⟩

/-- The fold of `polyBBox` bounds every traversed point. -/
theorem foldl_bbox_mem (ps : List Point) (acc : Point × Point) (q : Point)
    (hq : q ∈ ps) :
    (ps.foldl (fun a p => (pmin a.1 p, pmax a.2 p)) acc).1.1 ≤ q.1 ∧
    (ps.foldl (fun a p => (pmin a.1 p, pmax a.2 p)) acc).1.2 ≤ q.2 ∧
    q.1 ≤ (ps.foldl (fun a p => (pmin a.1 p, pmax a.2 p)) acc).2.1 ∧
    q.2 ≤ (ps.foldl (fun a p => (pmin a.1 p, pmax a.2 p)) acc).2.2 := by
  induction ps generalizing acc with
  | nil => cases hq
  | cons p ps ih =>
    simp only [List.foldl_cons]
    rcases List.mem_cons.1 hq with rfl | hq'
    · obtain ⟨h1, h2, h3, h4⟩ := foldl_bbox_le ps (pmin acc.1 q, pmax acc.2 q)
      exact ⟨le_trans h1 (min_le_right _ _), le_trans h2 (min_le_right _ _),
        le_trans (le_max_right _ _) h3, le_trans (le_max_right _ _) h4⟩
    · exact ih _ hq'

/-- `polyBBox` bounds every vertex of the polygon. -/
theorem polyBBox_mem (vs : List Point) (lo hi : Point)
    (h : polyBBox vs = some (lo, hi)) (q : Point) (hq : q ∈ vs) :
    lo.1 ≤ q.1 ∧ lo.2 ≤ q.2 ∧ q.1 ≤ hi.1 ∧ q.2 ≤ hi.2 := by
  cases vs with
  | nil => cases hq
  | cons p ps =>
    simp only [polyBBox, Option.some.injEq] at h
    rcases List.mem_cons.1 hq with rfl | hq'
    · obtain ⟨h1, h2, h3, h4⟩ := foldl_bbox_le ps (q, q)
      rw [h] at h1 h2 h3 h4
      exact ⟨h1, h2, h3, h4⟩
    · obtain ⟨h1, h2, h3, h4⟩ := foldl_bbox_mem ps (p, p) q hq'
      rw [h] at h1 h2 h3 h4
      exact ⟨h1, h2, h3, h4⟩

/-- Folding `mergeBB` over more shapes only widens a `some` accumulator. -/
theorem foldl_mergeBB_bound (shapes : List Shape) (lo hi : Point) :
    ∃ L H,
      shapes.foldl (fun a s => mergeBB a (geomBBox s.geom)) (some (lo, hi)) = some (L, H) ∧
      L.1 ≤ lo.1 ∧ L.2 ≤ lo.2 ∧ hi.1 ≤ H.1 ∧ hi.2 ≤ H.2 := by
  induction shapes generalizing lo hi with
  | nil => exact ⟨lo, hi, rfl, le_rfl, le_rfl, le_rfl, le_rfl⟩
  | cons s rest ih =>
    simp only [List.foldl_cons]
    rcases hg : geomBBox s.geom with _ | ⟨a, b⟩
    · simpa only [mergeBB] using ih lo hi
    · obtain ⟨L, H, hfold, b1, b2, b3, b4⟩ := ih (pmin lo a) (pmax hi b)
      refine ⟨L, H, by simpa only [mergeBB] using hfold, ?_, ?_, ?_, ?_⟩
      · exact le_trans b1 (min_le_left _ _)
      · exact le_trans b2 (min_le_left _ _)
      · exact le_trans (le_max_left _ _) b3
      · exact le_trans (le_max_left _ _) b4

/-- Folding `mergeBB` over shapes bounds the box of every member shape,
whatever the starting accumulator. -/
theorem foldl_mergeBB_mem (shapes : List Shape)
    (acc : Option (Point × Point)) (s : Shape) (hs : s ∈ shapes)
    (lo hi : Point) (hbb : geomBBox s.geom = some (lo, hi)) :
    ∃ L H,
      shapes.foldl (fun a t => mergeBB a (geomBBox t.geom)) acc = some (L, H) ∧
      L.1 ≤ lo.1 ∧ L.2 ≤ lo.2 ∧ hi.1 ≤ H.1 ∧ hi.2 ≤ H.2 := by
  induction shapes generalizing acc with
  | nil => cases hs
  | cons t rest ih =>
    simp only [List.foldl_cons]
    rcases List.mem_cons.1 hs with rfl | hs'
    · rw [hbb]
      rcases acc with _ | ⟨c, d⟩
      · simpa only [mergeBB] using foldl_mergeBB_bound rest lo hi
      · obtain ⟨L, H, hfold, b1, b2, b3, b4⟩ :=
          foldl_mergeBB_bound rest (pmin c lo) (pmax d hi)
        refine ⟨L, H, by simpa only [mergeBB] using hfold, ?_, ?_, ?_, ?_⟩
        · exact le_trans b1 (min_le_right _ _)
        · exact le_trans b2 (min_le_right _ _)
        · exact le_trans (le_max_right _ _) b3
        · exact le_trans (le_max_right _ _) b4
    · exact ih _ hs'

/-- `shapesBBox` bounds the box of every member shape. -/
theorem shapesBBox_mem (shapes : List Shape) (s : Shape) (hs : s ∈ shapes)
    (lo hi : Point) (hbb : geomBBox s.geom = some (lo, hi)) :
    ∃ L H, shapesBBox shapes = some (L, H) ∧
      L.1 ≤ lo.1 ∧ L.2 ≤ lo.2 ∧ hi.1 ≤ H.1 ∧ hi.2 ≤ H.2 :=
  foldl_mergeBB_mem shapes none s hs lo hi hbb

/-- The box of a (default-ratio) octagon shape of size `(x, y)` centred at `o`
reaches at least `o ± (x/2, y/2)` in the appropriate directions, whatever the
signs of `x` and `y`. -/
theorem octS_bbox (x y : ℚ) (o : Point) (ld : Nat × Nat) :
    ∃ lo hi, geomBBox (octS x y o ld).geom = some (lo, hi) ∧
      lo.1 ≤ o.1 - x/2 ∧ lo.1 ≤ o.1 + x/2 ∧ o.1 - x/2 ≤ hi.1 ∧ o.1 + x/2 ≤ hi.1 ∧
      lo.2 ≤ o.2 - y/2 ∧ lo.2 ≤ o.2 + y/2 ∧ o.2 - y/2 ≤ hi.2 ∧ o.2 + y/2 ≤ hi.2 := by
  rcases hpb : polyBBox (octagon x y o (1/6) (1/6)) with _ | ⟨lo, hi⟩
  · exact absurd hpb (by simp [octagon, polyBBox])
  · have hplus : ((o.1 + x/2, o.2 + 2*y*(1/6)) : Point) ∈ octagon x y o (1/6) (1/6) := by
      simp [octagon]
    have hminus : ((o.1 - x/2, o.2 - 2*y*(1/6)) : Point) ∈ octagon x y o (1/6) (1/6) := by
      simp [octagon]
    have htop : ((o.1 + 2*x*(1/6), o.2 + y/2) : Point) ∈ octagon x y o (1/6) (1/6) := by
      simp [octagon]
    have hbot : ((o.1 + 2*x*(1/6), o.2 - y/2) : Point) ∈ octagon x y o (1/6) (1/6) := by
      simp [octagon]
    obtain ⟨p1, _, p3, _⟩ := polyBBox_mem _ _ _ hpb _ hplus
    obtain ⟨m1, _, m3, _⟩ := polyBBox_mem _ _ _ hpb _ hminus
    obtain ⟨_, t2, _, t4⟩ := polyBBox_mem _ _ _ hpb _ htop
    obtain ⟨_, b2, _, b4⟩ := polyBBox_mem _ _ _ hpb _ hbot
    exact ⟨lo, hi, hpb, m1, p1, m3, p3, b2, t2, b4, t4⟩

/-- If a shape list contains two concentric (default-ratio) octagons of
distinct sizes centred at `o`, then `o` is strictly inside the list's
bounding box. -/
theorem strict_inside_of_two_octs (shapes : List Shape) (s1 s2 : ℚ) (o : Point)
    (ld1 ld2 : Nat × Nat) (hne : s1 ≠ s2)
    (h1 : octS s1 s1 o ld1 ∈ shapes) (h2 : octS s2 s2 o ld2 ∈ shapes) :
    ∃ L H, shapesBBox shapes = some (L, H) ∧
      L.1 < o.1 ∧ o.1 < H.1 ∧ L.2 < o.2 ∧ o.2 < H.2 := by
  obtain ⟨lo1, hi1, hbb1, a1, a2, a3, a4, a5, a6, a7, a8⟩ := octS_bbox s1 s1 o ld1
  obtain ⟨lo2, hi2, hbb2, c1, c2, c3, c4, c5, c6, c7, c8⟩ := octS_bbox s2 s2 o ld2
  obtain ⟨L, H, hS, d1, d2, d3, d4⟩ := shapesBBox_mem shapes _ h1 lo1 hi1 hbb1
  obtain ⟨L', H', hS', e1, e2, e3, e4⟩ := shapesBBox_mem shapes _ h2 lo2 hi2 hbb2
  rw [hS, Option.some.injEq, Prod.mk.injEq] at hS'
  obtain ⟨rfl, rfl⟩ := hS'
  have hone : s1 ≠ 0 ∨ s2 ≠ 0 := by
    by_contra hcon
    push_neg at hcon
    exact hne (hcon.1.trans hcon.2.symm)
  refine ⟨L, H, hS, ?_, ?_, ?_, ?_⟩ <;>
    · rcases hone with h0 | h0 <;> rcases lt_or_gt_of_ne h0 with hlt | hlt <;> linarith

/-! ## Claim C2: connection points of the device stack -/

/-- C2. For every input satisfying the feasibility inequality,
`make_ferro_device` returns
`top_connection = (-w/2 + via_size + 4*UVL, 0)` and
`bottom_connection = (w/2 - via_size - 4*UVL, 0)`, and both points are
strictly inside the device cell's bounding box. -/
theorem make_ferro_device_connection_points (mesa_size via_size w h : ℚ)
    (short : Bool)
    (hfeas : 2*via_size + 8*UVL + mesa_size + 2*UVL ≤ w - 4*UVL) :
    ∃ cell,
      make_ferro_device mesa_size via_size (w, h) short =
        .ok (cell, (w/2 - via_size - 4*UVL, 0), (-w/2 + via_size + 4*UVL, 0)) ∧
      ∃ L H, shapesBBox cell.shapes = some (L, H) ∧
        (L.1 < -w/2 + via_size + 4*UVL ∧ -w/2 + via_size + 4*UVL < H.1) ∧
        (L.1 < w/2 - via_size - 4*UVL ∧ w/2 - via_size - 4*UVL < H.1) ∧
        L.2 < 0 ∧ 0 < H.2 := by
  refine ⟨Cell.mk (ferroName mesa_size via_size short)
    (ferroShapes mesa_size via_size w short) [], ?_, ?_⟩
  · unfold make_ferro_device
    rw [if_neg (not_lt.2 hfeas)]
  · have hv : via_size ≠ via_size + 2*UVL := by norm_num [UVL]
    have hmemT1 : octS via_size via_size (-w/2 + via_size + 4*UVL, 0) (layersLD "V2") ∈
        ferroShapes mesa_size via_size w short := by
      simp [ferroShapes, make_wire]
    have hmemT2 : octS (via_size + 2*UVL) (via_size + 2*UVL)
        (-w/2 + via_size + 4*UVL, 0) (layersLD "M2") ∈
        ferroShapes mesa_size via_size w short := by
      simp [ferroShapes, make_wire]
    have hmemB1 : octS via_size via_size (w/2 - via_size - 4*UVL, 0) (layersLD "V2") ∈
        ferroShapes mesa_size via_size w short := by
      simp [ferroShapes, make_wire]
    have hmemB2 : octS (via_size + 2*UVL) (via_size + 2*UVL)
        (w/2 - via_size - 4*UVL, 0) (layersLD "W1") ∈
        ferroShapes mesa_size via_size w short := by
      simp [ferroShapes, make_wire]
    obtain ⟨L, H, hS, t1, t2, t3, t4⟩ :=
      strict_inside_of_two_octs _ via_size (via_size + 2*UVL) _ _ _ hv hmemT1 hmemT2
    obtain ⟨L', H', hS', b1, b2, _, _⟩ :=
      strict_inside_of_two_octs _ via_size (via_size + 2*UVL) _ _ _ hv hmemB1 hmemB2
    rw [hS, Option.some.injEq, Prod.mk.injEq] at hS'
    obtain ⟨rfl, rfl⟩ := hS'
    exact ⟨L, H, hS, ⟨t1, t2⟩, ⟨b1, b2⟩, t3, t4⟩

/-- Witness for C2 at `mesa_size = 20`, `via_size = 2`, extent `(60, 40)`. -/
theorem make_ferro_device_connection_points_witness :
    ∃ cell,
      make_ferro_device 20 2 (60, 40) false =
        .ok (cell, (60/2 - 2 - 4*UVL, 0), (-60/2 + 2 + 4*UVL, 0)) ∧
      ∃ L H, shapesBBox cell.shapes = some (L, H) ∧
        (L.1 < -60/2 + 2 + 4*UVL ∧ -60/2 + 2 + 4*UVL < H.1) ∧
        (L.1 < 60/2 - 2 - 4*UVL ∧ 60/2 - 2 - 4*UVL < H.1) ∧
        L.2 < 0 ∧ 0 < H.2 :=
  make_ferro_device_connection_points 20 2 60 40 false (by norm_num [UVL])

/-! ### build_mask.py: merge and boundary stages

The pipeline stages of `build_mask.py` after flattening are modelled over a
syntactic polygon algebra: `gdstk.boolean(polygons, [], "or")` becomes a
single `union` node over the bucket, `gdstk.offset` an `offset` node, and
`geometry.convert_to_boundary` the difference `offset p width \ p`. -/

/-- Syntactic polygon values flowing through the merge/boundary stages. -/
inductive MPoly where
  | base (n : Nat)
  | union (ps : List MPoly)
  | offset (p : MPoly) (w : ℚ)
  | diff (a b : MPoly)

/-- The per-physical-layer buckets (`mapping` in `build_mask.py`). -/
abbrev Buckets := List ((Nat × Nat) × List MPoly)

/-- `mapping[ld]`: association-list lookup (the Python dict, keyed by the
physical (layer, datatype) pair). -/
def lookupB : Buckets → (Nat × Nat) → Option (List MPoly)
  | [], _ => none
  | g :: rest, ld => if g.1 = ld then some g.2 else lookupB rest ld

/-- The merge stage: each bucket is replaced by its boolean union
(`gdstk.boolean(polygons, [], "or")`). -/
def mergeBuckets (m : Buckets) : Buckets :=
  m.map (fun g => (g.1, [MPoly.union g.2]))

/-- `geometry.convert_to_boundary`: the polygon offset outward by `width`
minus the original polygon. -/
def convert_to_boundary (p : MPoly) (width : ℚ) : List MPoly :=
  [.diff (.offset p width) p]

/-- One boundary conversion of a whole bucket
(`geom.flatten([geom.convert_to_boundary(p, w) for p in mapping[ld]])`). -/
def convBucket (ps : List MPoly) : List MPoly :=
  (ps.map (fun p => convert_to_boundary p boundary_width)).flatten

/-- `mapping[ld] = f(mapping[ld])`.  Python raises `KeyError` when `ld` is
absent; the claims only concern present keys, where this map-if-present is
exact. -/
def updateBucket (m : Buckets) (ld : Nat × Nat) (f : List MPoly → List MPoly) :
    Buckets :=
  m.map (fun g => if g.1 = ld then (g.1, f g.2) else g)

/-- The boundary-pass loop of `build_mask.py` (lines 89-94): iterate over the
layer-table values in order, convert a bucket when its physical id has not
been processed yet and its mode is "boundary", and append the id to
`processed_layers` unconditionally. -/
def boundaryLoop (vals : List ((Nat × Nat) × LMode)) (processed : List (Nat × Nat))
    (m : Buckets) : Buckets :=
  match vals with
  | [] => m
  | (ld, mode) :: rest =>
      boundaryLoop rest (processed ++ [ld])
        (if ld ∉ processed ∧ mode = LMode.boundary then updateBucket m ld convBucket else m)

/-- `config.layers.values()` with each entry reduced to (physical id, mode). -/
def configLayerVals : List ((Nat × Nat) × LMode) :=
  layersList.map (fun e => ((e.2.1, e.2.2.1), e.2.2.2))

/-- The merge stage followed by the boundary pass, as run by
`build_mask.py`. -/
def boundary_stage (groups : Buckets) : Buckets :=
  boundaryLoop configLayerVals [] (mergeBuckets groups)

/-- Updating a bucket changes exactly that key's value. -/
theorem lookupB_updateBucket (m : Buckets) (ld ld' : Nat × Nat)
    (f : List MPoly → List MPoly) :
    lookupB (updateBucket m ld f) ld' =
      if ld' = ld then (lookupB m ld').map f else lookupB m ld' := by
  induction m with
  | nil => simp only [updateBucket, List.map_nil, lookupB, Option.map_none', ite_self]
  | cons g rest ih =>
    simp only [updateBucket, List.map_cons]
    by_cases hg : g.1 = ld
    · by_cases hq : ld' = ld
      · subst hq
        simp [lookupB, hg]
      · have hgq : ¬ g.1 = ld' := fun h => hq (h.symm.trans hg)
        simp only [lookupB, if_pos hg, if_neg hgq, if_neg hq] at ih ⊢
        simpa [updateBucket, if_neg hq] using ih
    · by_cases hq : g.1 = ld'
      · have hne : ld' ≠ ld := fun h => hg (hq.trans h)
        simp [lookupB, hg, hq, hne]
      · simp only [lookupB, if_neg hg, if_neg hq]
        simpa [updateBucket] using ih

/-- Closed form of the boundary-pass loop: the bucket of a physical id is
converted (exactly once) iff the id is not initially processed and the first
layer-table entry bearing this id has mode "boundary"; otherwise it is left
untouched.  In particular a bucket is never converted twice, however many
logical layer names alias its physical id. -/
theorem boundaryLoop_lookup (vals : List ((Nat × Nat) × LMode))
    (processed : List (Nat × Nat)) (m : Buckets) (ld : Nat × Nat) :
    lookupB (boundaryLoop vals processed m) ld =
      if ld ∈ processed then lookupB m ld
      else
        match vals.find? (fun e => e.1 == ld) with
        | some (_, LMode.boundary) => (lookupB m ld).map convBucket
        | _ => lookupB m ld := by
  induction vals generalizing processed m with
  | nil =>
    simp only [boundaryLoop, List.find?_nil]
    rw [ite_self]
  | cons e rest ih =>
    obtain ⟨eld, emode⟩ := e
    simp only [boundaryLoop]
    rw [ih]
    by_cases hp : ld ∈ processed
    · have hp' : ld ∈ processed ++ [eld] := List.mem_append_left _ hp
      rw [if_pos hp', if_pos hp]
      by_cases hcond : eld ∉ processed ∧ emode = LMode.boundary
      · have hne : ld ≠ eld := fun h => hcond.1 (h ▸ hp)
        rw [if_pos hcond, lookupB_updateBucket, if_neg hne]
      · rw [if_neg hcond]
    · by_cases hld : eld = ld
      · have hp' : ld ∈ processed ++ [eld] := by
          simp [hld.symm, List.mem_append]
        rw [if_pos hp', if_neg hp]
        have hbeq : (eld == ld) = true := beq_iff_eq.2 hld
        cases emode with
        | fill =>
          have hcond : ¬ (eld ∉ processed ∧ LMode.fill = LMode.boundary) := by simp
          rw [if_neg hcond]
          simp [List.find?, hbeq]
        | boundary =>
          have hcond : eld ∉ processed ∧ LMode.boundary = LMode.boundary :=
            ⟨fun hc => hp (hld ▸ hc), rfl⟩
          rw [if_pos hcond, lookupB_updateBucket, if_pos hld.symm]
          simp [List.find?, hbeq]
      · have hp' : ld ∉ processed ++ [eld] := by
          simp only [List.mem_append, List.mem_singleton]
          rintro (h | h)
          · exact hp h
          · exact hld h.symm
        rw [if_neg hp', if_neg hp]
        have hbeq : (eld == ld) = false := beq_eq_false_iff_ne.2 hld
        have hfind : ((eld, emode) :: rest).find? (fun e => e.1 == ld) =
            rest.find? (fun e => e.1 == ld) := by
          simp [List.find?, hbeq]
        rw [hfind]
        by_cases hcond : eld ∉ processed ∧ emode = LMode.boundary
        · rw [if_pos hcond, lookupB_updateBucket, if_neg (fun h => hld h.symm)]
        · rw [if_neg hcond]

/-- Merging replaces each present bucket by the singleton union of its
polygons. -/
theorem lookupB_mergeBuckets (m : Buckets) (ld : Nat × Nat) :
    lookupB (mergeBuckets m) ld = (lookupB m ld).map (fun ps => [MPoly.union ps]) := by
  induction m with
  | nil => simp [mergeBuckets, lookupB]
  | cons g rest ih =>
    by_cases hg : g.1 = ld
    · simp [mergeBuckets, lookupB, hg]
    · simp only [mergeBuckets, List.map_cons, lookupB, if_neg hg]
      simpa [mergeBuckets] using ih

/-! ## Claim C3: boundary conversion after merging, once per physical id -/

/-- C3. For both physical ids whose layer mode is "boundary" — `(11, 0)`
(aliased by the logical names "M2" and "W2") and `(10, 0)` ("W1") — the
pipeline's boundary pass replaces the bucket with exactly one application of
the boundary operator to the bucket's merged boolean union: the set
difference between the union offset outward by `boundary_width` and the
union itself.  The operand being the single merged union (and the result
carrying exactly one `diff`/`offset` application, even though two logical
names alias `(11, 0)`) shows the conversion runs strictly after the merge
and at most once per physical id; the general once-at-most bookkeeping of
the loop is `boundaryLoop_lookup`. -/
theorem boundary_after_merge (groups : Buckets) :
    (∀ ps, lookupB groups (11, 0) = some ps →
      lookupB (boundary_stage groups) (11, 0) =
        some [MPoly.diff (MPoly.offset (MPoly.union ps) boundary_width)
          (MPoly.union ps)]) ∧
    (∀ ps, lookupB groups (10, 0) = some ps →
      lookupB (boundary_stage groups) (10, 0) =
        some [MPoly.diff (MPoly.offset (MPoly.union ps) boundary_width)
          (MPoly.union ps)]) := by
  constructor
  · intro ps hps
    unfold boundary_stage
    rw [boundaryLoop_lookup, if_neg (List.not_mem_nil _)]
    have hf : configLayerVals.find? (fun e => e.1 == ((11 : Nat), (0 : Nat))) =
        some (((11 : Nat), (0 : Nat)), LMode.boundary) := rfl
    rw [hf, lookupB_mergeBuckets, hps]
    simp [convBucket, convert_to_boundary]
  · intro ps hps
    unfold boundary_stage
    rw [boundaryLoop_lookup, if_neg (List.not_mem_nil _)]
    have hf : configLayerVals.find? (fun e => e.1 == ((10 : Nat), (0 : Nat))) =
        some (((10 : Nat), (0 : Nat)), LMode.boundary) := rfl
    rw [hf, lookupB_mergeBuckets, hps]
    simp [convBucket, convert_to_boundary]

/-- Witness for C3 on concrete two-bucket groups. -/
theorem boundary_after_merge_witness :
    lookupB (boundary_stage [((11, 0), [MPoly.base 0]), ((10, 0), [MPoly.base 1])])
        (11, 0) =
      some [MPoly.diff (MPoly.offset (MPoly.union [MPoly.base 0]) boundary_width)
        (MPoly.union [MPoly.base 0])] ∧
    lookupB (boundary_stage [((11, 0), [MPoly.base 0]), ((10, 0), [MPoly.base 1])])
        (10, 0) =
      some [MPoly.diff (MPoly.offset (MPoly.union [MPoly.base 1]) boundary_width)
        (MPoly.union [MPoly.base 1])] := by
  constructor
  · exact (boundary_after_merge _).1 [MPoly.base 0] rfl
  · exact (boundary_after_merge _).2 [MPoly.base 1] rfl

/-! ### build_mask.py: the hierarchy collector

`add_children(cell, lib)` adds `cell` to the library, then for every
reference whose target's name is not already present recurses into the
target.  The embedding represents an acyclic reference graph by its (finite)
tree unfolding, with the library threaded as a list in insertion order. -/

mutual

/-- `build_mask.add_children`. -/
def add_children : Cell → List Cell → List Cell
  | .mk n s refs, lib => addRefs refs (lib ++ [.mk n s refs])

/-- The `for ref in cell.references` loop body of `add_children`. -/
def addRefs : List (Point × Cell) → List Cell → List Cell
  | [], lib => lib
  | (_, c) :: rest, lib =>
      addRefs rest (if c.name ∈ lib.map Cell.name then lib else add_children c lib)

end

mutual

/-- Number of cells in the tree unfolding (used as a recursion measure). -/
def csize : Cell → Nat
  | .mk _ _ refs => 1 + csizeList refs

/-- Sum of `csize` over reference targets. -/
def csizeList : List (Point × Cell) → Nat
  | [] => 0
  | (_, c) :: rest => csize c + csizeList rest

end

mutual

/-- Every cell reachable from `c` (including `c`), with multiplicity. -/
def subcells : Cell → List Cell
  | .mk n s refs => .mk n s refs :: subList refs

/-- Cells reachable from a reference list's targets. -/
def subList : List (Point × Cell) → List Cell
  | [] => []
  | (_, c) :: rest => subcells c ++ subList rest

end

/-- The names present in a library. -/
def libNames (lib : List Cell) : List String := lib.map Cell.name

/-- The names reachable from a cell. -/
def reachNames (c : Cell) : List String := (subcells c).map Cell.name

/-- Every name reachable from `x` already occurs in `lib`. -/
def ClosedIn (lib : List Cell) (x : Cell) : Prop :=
  ∀ nm ∈ reachNames x, nm ∈ libNames lib

/-- Distinct cells in `L` carry distinct names. -/
def NameInj (L : List Cell) : Prop :=
  ∀ a ∈ L, ∀ b ∈ L, a.name = b.name → a = b

/-- `csize` is positive. -/
theorem csize_pos (c : Cell) : 0 < csize c := by
  cases c with
  | mk n s refs => simp [csize]

/-- A reference target's size is bounded by the list sum. -/
theorem csize_le_of_mem (refs : List (Point × Cell)) (pc : Point × Cell)
    (h : pc ∈ refs) : csize pc.2 ≤ csizeList refs := by
  induction refs with
  | nil => cases h
  | cons q rest ih =>
    obtain ⟨qp, qc⟩ := q
    rcases List.mem_cons.1 h with rfl | h'
    · simp [csizeList]
    · calc csize pc.2 ≤ csizeList rest := ih h'
        _ ≤ csizeList ((qp, qc) :: rest) := by simp [csizeList]

/-- A cell is among its own subcells. -/
theorem self_mem_subcells (c : Cell) : c ∈ subcells c := by
  cases c with
  | mk n s refs => exact List.mem_cons_self _ _

/-- Subcells of a reference target are subcells of the reference list. -/
theorem subcells_subset_subList (refs : List (Point × Cell)) (pc : Point × Cell)
    (h : pc ∈ refs) (x : Cell) (hx : x ∈ subcells pc.2) : x ∈ subList refs := by
  induction refs with
  | nil => cases h
  | cons q rest ih =>
    obtain ⟨qp, qc⟩ := q
    rcases List.mem_cons.1 h with rfl | h'
    · exact List.mem_append_left _ hx
    · exact List.mem_append_right _ (ih h')

/-- Name injectivity restricts along membership inclusion. -/
theorem nameInj_mono {L L' : List Cell} (h : NameInj L)
    (hsub : ∀ x ∈ L', x ∈ L) : NameInj L' :=
  fun a ha b hb hab => h a (hsub a ha) b (hsub b hb) hab

/-- Closedness transfers to a library with at least the same names. -/
theorem closedIn_mono {lib lib' : List Cell} {x : Cell} (h : ClosedIn lib x)
    (hsub : ∀ nm ∈ libNames lib, nm ∈ libNames lib') : ClosedIn lib' x :=
  fun nm hnm => hsub nm (h nm hnm)

/-- Outer induction statement: the contract of one `add_children` call.  The
closedness hypothesis exempts in-progress ancestors, which are strictly
larger than `c` in the tree unfolding. -/
def OuterSpec (c : Cell) (lib : List Cell) : Prop :=
  (libNames lib).Nodup →
  NameInj (lib ++ subcells c) →
  c.name ∉ libNames lib →
  (∀ x ∈ lib, ClosedIn lib x ∨ csize c < csize x) →
  (libNames (add_children c lib)).Nodup ∧
  (∀ nm, nm ∈ libNames (add_children c lib) ↔
    nm ∈ libNames lib ∨ nm ∈ reachNames c) ∧
  (∀ x ∈ add_children c lib, x ∈ lib ∨ x ∈ subcells c) ∧
  (∀ x ∈ add_children c lib, ClosedIn (add_children c lib) x ∨ x ∈ lib) ∧
  (∀ x ∈ lib, x ∈ add_children c lib)

/-- Inner induction statement: the contract of the reference loop. -/
def InnerSpec (refs : List (Point × Cell)) (lib : List Cell) : Prop :=
  (libNames lib).Nodup →
  NameInj (lib ++ subList refs) →
  (∀ x ∈ lib, ClosedIn lib x ∨ ∀ pc ∈ refs, csize pc.2 < csize x) →
  (libNames (addRefs refs lib)).Nodup ∧
  (∀ nm, nm ∈ libNames (addRefs refs lib) ↔
    nm ∈ libNames lib ∨ nm ∈ (subList refs).map Cell.name) ∧
  (∀ x ∈ addRefs refs lib, x ∈ lib ∨ x ∈ subList refs) ∧
  (∀ x ∈ addRefs refs lib, ClosedIn (addRefs refs lib) x ∨ x ∈ lib) ∧
  (∀ x ∈ lib, x ∈ addRefs refs lib)

/-- One `add_children` call satisfies its contract, given the loop contract
for strictly smaller reference lists. -/
theorem outer_of_inner (c : Cell) (lib : List Cell)
    (hInner : ∀ refs lib', csizeList refs < csize c → InnerSpec refs lib') :
    OuterSpec c lib := by
  obtain ⟨n, s, refs⟩ := c
  intro hnd hinj hfresh hcl
  have hlt : csizeList refs < csize (Cell.mk n s refs) := by
    simp [csize]
  have hI := hInner refs (lib ++ [Cell.mk n s refs]) hlt
  have hnd1 : (libNames (lib ++ [Cell.mk n s refs])).Nodup := by
    simp only [libNames, List.map_append, List.map_cons, List.map_nil]
    rw [List.nodup_append]
    refine ⟨hnd, List.nodup_singleton _, ?_⟩
    intro a ha hb
    rcases List.mem_singleton.1 hb with rfl
    exact hfresh ha
  have hinj1 : NameInj ((lib ++ [Cell.mk n s refs]) ++ subList refs) := by
    apply nameInj_mono hinj
    intro x hx
    rcases List.mem_append.1 hx with hx | hx
    · rcases List.mem_append.1 hx with hx | hx
      · exact List.mem_append_left _ hx
      · rcases List.mem_singleton.1 hx with rfl
        exact List.mem_append_right _ (self_mem_subcells _)
    · exact List.mem_append_right _ (List.mem_cons_of_mem _ hx)
  have hcl1 : ∀ x ∈ lib ++ [Cell.mk n s refs],
      ClosedIn (lib ++ [Cell.mk n s refs]) x ∨ ∀ pc ∈ refs, csize pc.2 < csize x := by
    intro x hx
    rcases List.mem_append.1 hx with hx | hx
    · rcases hcl x hx with hclosed | hbig
      · left
        exact closedIn_mono hclosed (fun nm h => by
          simp only [libNames, List.map_append, List.mem_append]
          exact Or.inl h)
      · right
        intro pc hpc
        calc csize pc.2 ≤ csizeList refs := csize_le_of_mem _ _ hpc
          _ < csize (Cell.mk n s refs) := hlt
          _ < csize x := hbig
    · rcases List.mem_singleton.1 hx with rfl
      right
      intro pc hpc
      have h1 := csize_le_of_mem _ _ hpc
      simp only [csize]
      omega
  obtain ⟨i1, i2, i3, i4, i5⟩ := hI hnd1 hinj1 hcl1
  refine ⟨i1, ?_, ?_, ?_, ?_⟩
  · intro nm
    rw [show add_children (Cell.mk n s refs) lib =
      addRefs refs (lib ++ [Cell.mk n s refs]) from rfl, i2 nm]
    constructor
    · rintro (h | h)
      · simp only [libNames, List.map_append, List.map_cons, List.map_nil,
          List.mem_append, List.mem_singleton] at h
        rcases h with h | h
        · exact Or.inl h
        · right
          rcases h with rfl
          exact List.mem_cons_self _ _
      · exact Or.inr (List.mem_cons_of_mem _ h)
    · rintro (h | h)
      · left
        simp only [libNames, List.map_append, List.mem_append]
        exact Or.inl h
      · rcases List.mem_cons.1 h with rfl | h'
        · left
          simp only [libNames, List.map_append, List.map_cons, List.map_nil,
            List.mem_append, List.mem_singleton]
          exact Or.inr rfl
        · exact Or.inr h'
  · intro x hx
    rcases i3 x hx with hx' | hx'
    · rcases List.mem_append.1 hx' with h | h
      · exact Or.inl h
      · rcases List.mem_singleton.1 h with rfl
        exact Or.inr (self_mem_subcells _)
    · exact Or.inr (List.mem_cons_of_mem _ hx')
  · intro x hx
    rcases i4 x hx with h | h
    · exact Or.inl h
    · rcases List.mem_append.1 h with h' | h'
      · exact Or.inr h'
      · left
        rcases List.mem_singleton.1 h' with rfl
        intro nm hnm
        rcases List.mem_cons.1 hnm with rfl | h''
        · exact (i2 _).2 (Or.inl (by
            simp only [libNames, List.map_append, List.map_cons, List.map_nil,
              List.mem_append, List.mem_singleton]
            exact Or.inr rfl))
        · exact (i2 _).2 (Or.inr h'')
  · intro x hx
    exact i5 x (List.mem_append_left _ hx)

/-- The reference loop satisfies its contract, given `add_children`'s
contract for cells no larger than the loop's reference list. -/
theorem inner_of_outer (refs : List (Point × Cell))
    (hOuter : ∀ c lib', csize c ≤ csizeList refs → OuterSpec c lib')
    (lib : List Cell) : InnerSpec refs lib := by
  induction refs generalizing lib with
  | nil =>
    intro hnd _ _
    refine ⟨hnd, ?_, ?_, ?_, ?_⟩
    · intro nm
      simp [subList, addRefs]
    · intro x hx
      exact Or.inl hx
    · intro x hx
      exact Or.inr hx
    · intro x hx
      exact hx
  | cons q rest ih =>
    obtain ⟨qp, qc⟩ := q
    intro hnd hinj hcl
    simp only [addRefs]
    have hOuter' : ∀ c lib', csize c ≤ csizeList rest → OuterSpec c lib' := by
      intro c lib' hc
      refine hOuter c lib' (le_trans hc ?_)
      simp only [csizeList]
      omega
    by_cases hmem : qc.name ∈ lib.map Cell.name
    · rw [if_pos hmem]
      have hqcin : qc ∈ lib := by
        obtain ⟨x, hxlib, hxname⟩ := List.mem_map.1 hmem
        have hx2 : x ∈ lib ++ subList ((qp, qc) :: rest) := List.mem_append_left _ hxlib
        have hqcmem : qc ∈ lib ++ subList ((qp, qc) :: rest) :=
          List.mem_append_right _
            (subcells_subset_subList _ (qp, qc) (List.mem_cons_self _ _) _
              (self_mem_subcells qc))
        have := hinj x hx2 qc hqcmem hxname
        rwa [← this]
      have hqcclosed : ClosedIn lib qc := by
        rcases hcl qc hqcin with h | h
        · exact h
        · exact absurd (h (qp, qc) (List.mem_cons_self _ _)) (lt_irrefl _)
      have hinj' : NameInj (lib ++ subList rest) := by
        apply nameInj_mono hinj
        intro x hx
        rcases List.mem_append.1 hx with h | h
        · exact List.mem_append_left _ h
        · refine List.mem_append_right _ ?_
          show x ∈ subList ((qp, qc) :: rest)
          exact List.mem_append_right _ h
      have hcl' : ∀ x ∈ lib, ClosedIn lib x ∨ ∀ pc ∈ rest, csize pc.2 < csize x := by
        intro x hx
        rcases hcl x hx with h | h
        · exact Or.inl h
        · exact Or.inr (fun pc hpc => h pc (List.mem_cons_of_mem _ hpc))
      obtain ⟨i1, i2, i3, i4, i5⟩ := ih hOuter' lib hnd hinj' hcl'
      refine ⟨i1, ?_, ?_, i4, i5⟩
      · intro nm
        rw [i2 nm]
        constructor
        · rintro (h | h)
          · exact Or.inl h
          · right
            show nm ∈ (subList ((qp, qc) :: rest)).map Cell.name
            simp only [subList, List.map_append, List.mem_append]
            exact Or.inr h
        · rintro (h | h)
          · exact Or.inl h
          · simp only [subList, List.map_append, List.mem_append] at h
            rcases h with h | h
            · exact Or.inl (hqcclosed nm h)
            · exact Or.inr h
      · intro x hx
        rcases i3 x hx with h | h
        · exact Or.inl h
        · right
          show x ∈ subList ((qp, qc) :: rest)
          exact List.mem_append_right _ h
    · rw [if_neg hmem]
      have hOqc := hOuter qc lib (by
        simp only [csizeList]
        omega)
      have hinjqc : NameInj (lib ++ subcells qc) := by
        apply nameInj_mono hinj
        intro x hx
        rcases List.mem_append.1 hx with h | h
        · exact List.mem_append_left _ h
        · exact List.mem_append_right _
            (subcells_subset_subList _ (qp, qc) (List.mem_cons_self _ _) _ h)
      have hclqc : ∀ x ∈ lib, ClosedIn lib x ∨ csize qc < csize x := by
        intro x hx
        rcases hcl x hx with h | h
        · exact Or.inl h
        · exact Or.inr (h (qp, qc) (List.mem_cons_self _ _))
      obtain ⟨o1, o2, o3, o4, o5⟩ := hOqc hnd hinjqc hmem hclqc
      have hinj2 : NameInj (add_children qc lib ++ subList rest) := by
        apply nameInj_mono hinj
        intro x hx
        rcases List.mem_append.1 hx with h | h
        · rcases o3 x h with h' | h'
          · exact List.mem_append_left _ h'
          · exact List.mem_append_right _
              (subcells_subset_subList _ (qp, qc) (List.mem_cons_self _ _) _ h')
        · refine List.mem_append_right _ ?_
          show x ∈ subList ((qp, qc) :: rest)
          exact List.mem_append_right _ h
      have hcl2 : ∀ x ∈ add_children qc lib, ClosedIn (add_children qc lib) x ∨
          ∀ pc ∈ rest, csize pc.2 < csize x := by
        intro x hx
        rcases o4 x hx with h | h
        · exact Or.inl h
        · rcases hcl x h with h' | h'
          · left
            exact closedIn_mono h' (fun nm hnm => (o2 nm).2 (Or.inl hnm))
          · exact Or.inr (fun pc hpc => h' pc (List.mem_cons_of_mem _ hpc))
      obtain ⟨i1, i2, i3, i4, i5⟩ := ih hOuter' (add_children qc lib) o1 hinj2 hcl2
      refine ⟨i1, ?_, ?_, ?_, ?_⟩
      · intro nm
        rw [i2 nm]
        constructor
        · rintro (h | h)
          · rcases (o2 nm).1 h with h' | h'
            · exact Or.inl h'
            · right
              show nm ∈ (subList ((qp, qc) :: rest)).map Cell.name
              simp only [subList, List.map_append, List.mem_append]
              exact Or.inl h'
          · right
            show nm ∈ (subList ((qp, qc) :: rest)).map Cell.name
            simp only [subList, List.map_append, List.mem_append]
            exact Or.inr h
        · rintro (h | h)
          · exact Or.inl ((o2 nm).2 (Or.inl h))
          · simp only [subList, List.map_append, List.mem_append] at h
            rcases h with h | h
            · exact Or.inl ((o2 nm).2 (Or.inr h))
            · exact Or.inr h
      · intro x hx
        rcases i3 x hx with h | h
        · rcases o3 x h with h' | h'
          · exact Or.inl h'
          · right
            show x ∈ subList ((qp, qc) :: rest)
            exact List.mem_append_left _ h'
        · right
          show x ∈ subList ((qp, qc) :: rest)
          exact List.mem_append_right _ h
      · intro x hx
        rcases i4 x hx with h | h
        · exact Or.inl h
        · rcases o4 x h with h' | h'
          · left
            exact closedIn_mono h' (fun nm hnm => (i2 nm).2 (Or.inl hnm))
          · exact Or.inr h'
      · intro x hx
        exact i5 x (o5 x hx)

/-- The loop contract holds for all reference lists (strong induction on the
tree size; termination of the Python recursion on an acyclic graph is
reflected by the finiteness of the tree unfolding). -/
theorem innerSpec_all : ∀ n (refs : List (Point × Cell)) (lib : List Cell),
    csizeList refs ≤ n → InnerSpec refs lib := by
  intro n
  induction n using Nat.strong_induction_on with
  | _ n IH =>
    intro refs lib hle
    refine inner_of_outer refs (fun c lib' hc => ?_) lib
    refine outer_of_inner c lib' (fun refs' lib'' hlt => ?_)
    exact IH (csizeList refs') (lt_of_lt_of_le hlt (le_trans hc hle)) refs' lib'' le_rfl

/-- C4 (amended).  For every root whose reachable cells have pairwise
distinct names (distinct cells never share a name), the collector's registry
lists each reachable distinct name exactly once — its name list has no
duplicates and contains exactly the reachable names — and the registry size
equals the number of distinct reachable names (hence is independent of how
many references share a target).  Without the name-injectivity proviso the
"exactly once" part fails: see the counterexample. -/
theorem add_children_registry (root : Cell)
    (hinj : ∀ a ∈ subcells root, ∀ b ∈ subcells root, a.name = b.name → a = b) :
    ((add_children root []).map Cell.name).Nodup ∧
    (∀ nm, nm ∈ (add_children root []).map Cell.name ↔
      nm ∈ (subcells root).map Cell.name) ∧
    (add_children root []).length = ((subcells root).map Cell.name).dedup.length := by
  have hOuter : OuterSpec root [] :=
    outer_of_inner root []
      (fun refs lib' _ => innerSpec_all (csizeList refs) refs lib' le_rfl)
  have hinj' : NameInj ([] ++ subcells root) := by
    intro a ha b hb hab
    simp only [List.nil_append] at ha hb
    exact hinj a ha b hb hab
  obtain ⟨o1, o2, _, _, _⟩ :=
    hOuter List.nodup_nil hinj' (List.not_mem_nil _) (fun x hx => absurd hx (List.not_mem_nil _))
  have o1' : ((add_children root []).map Cell.name).Nodup := o1
  have hmem : ∀ nm, nm ∈ (add_children root []).map Cell.name ↔
      nm ∈ (subcells root).map Cell.name := by
    intro nm
    rw [show ((add_children root []).map Cell.name) = libNames (add_children root []) from rfl,
      o2 nm]
    simp [libNames, reachNames]
  refine ⟨o1', hmem, ?_⟩
  have h1 : ((add_children root []).map Cell.name).length =
      (add_children root []).length := List.length_map _ _
  have h2 : ((add_children root []).map Cell.name).toFinset =
      ((subcells root).map Cell.name).dedup.toFinset := by
    ext a
    simp only [List.mem_toFinset, List.mem_dedup]
    exact hmem a
  have h3 := List.toFinset_card_of_nodup o1'
  have h4 := List.toFinset_card_of_nodup (List.nodup_dedup ((subcells root).map Cell.name))
  have h5 : ((add_children root []).map Cell.name).toFinset.card =
      ((subcells root).map Cell.name).dedup.toFinset.card := by rw [h2]
  omega

/-- First cell named "X" (a leaf) in the C4 counterexample graph. -/
def cxLeafX : Cell := .mk "X" [] []

/-- The cell named "Y", reachable only through the second "X". -/
def cxLeafY : Cell := .mk "Y" [] []

/-- Second, structurally different cell also named "X", referencing "Y". -/
def cxInnerX : Cell := .mk "X" [] [((0, 0), cxLeafY)]

/-- Root of the C4 counterexample graph (acyclic: a tree). -/
def cxRoot : Cell := .mk "R" [] [((0, 0), cxLeafX), ((0, 0), cxInnerX)]

/-- C4 counterexample.  On an acyclic root whose reference graph contains two
structurally different cells sharing the name "X", the reachable distinct
name "Y" does NOT appear in the collector's registry (the second "X" is
skipped because the name is already present, so its subtree is never
traversed): the claim that each reachable distinct cell name appears exactly
once fails as stated. -/
theorem add_children_drops_reachable_name :
    "Y" ∈ (subcells cxRoot).map Cell.name ∧
    (add_children cxRoot []).map Cell.name = ["R", "X"] ∧
    "Y" ∉ (add_children cxRoot []).map Cell.name := by
  refine ⟨?_, rfl, ?_⟩ <;> decide

/-- Shared leaf for the C4 witness graph. -/
def wLeaf : Cell := .mk "L" [] []

/-- C4 witness root: one leaf referenced twice (reuse of one pad cell by
several references). -/
def wRoot : Cell := .mk "R" [] [((0, 0), wLeaf), ((1, 1), wLeaf)]

/-- Witness for the amended C4 theorem on a root that references the same
leaf twice: the registry names are without duplicates and the registry size
is the number of distinct reachable names (2, not 3). -/
theorem add_children_registry_witness :
    ((add_children wRoot []).map Cell.name).Nodup ∧
    (add_children wRoot []).length =
      ((subcells wRoot).map Cell.name).dedup.length ∧
    (add_children wRoot []).length = 2 := by
  have h := add_children_registry wRoot (by
    intro a ha b hb hab
    simp only [wRoot, wLeaf, subcells, subList, List.mem_cons, List.mem_append,
      List.not_mem_nil, or_false, List.mem_singleton] at ha hb
    rcases ha with rfl | rfl | rfl <;> rcases hb with rfl | rfl | rfl <;>
      first
        | rfl
        | exact absurd hab (by decide))
  exact ⟨h.1, h.2.2, by decide⟩

/-! ### components.py

`components.py` reads `config.pad_dim` and `config.pad_device_spacing`
(process-wide configuration; `build_mask.py` sets `pad_dim = 100`, and
`pad_device_spacing` stays 10): they are threaded here as the explicit
parameters `padDim` and `padSpacing`.  The module-level
`lower_pad = make_lower_pad(config.pad_dim)` is inlined at its use sites;
errors raised by the pad or device builders propagate unchanged, which the
`Except` bind models. -/

/-- The two-segment route as used inside the builders (the method arguments
are the literals `"-|"` and `"|-"`, which `route_90deg` always accepts). -/
def routePts (c0 c1 : Point) (method : String) : List Point :=
  (route_90deg c0 c1 method).toOption.getD []

/-- `components.FED2T`: a single two-terminal device with two pads, two
wires and a label.  The top-level cell name is
`f"2T_M{mesa_size}_V{via_size}"` — it encodes only the two sizes, not the
`name` label and not the `short` flag. -/
def FED2T (padDim padSpacing : ℚ) (name : String) (mesa_size via_size : ℚ)
    (short : Bool) : Except String Cell := do
  let pad ← make_lower_pad padDim none 30 true
  let (Device, lower, upper) ← make_ferro_device mesa_size via_size (60, 40) short
  let upO : Point := (upper.1 - padSpacing - padDim/2, upper.2)
  let lpO : Point := (lower.1 + padSpacing + padDim/2, lower.2)
  let wire_LP_D := make_wire (routePts (lower.1, lower.2 + wire_width/2) lpO "|-")
    wire_width "W1"
  let wire_UP_D := make_wire (routePts (upper.1, upper.2) upO "-|")
    wire_width "W1"
  let label := make_label name 40 (0, -padSpacing - padDim/2) false 50 0
  pure (.mk ("2T_M" ++ toString mesa_size ++ "_V" ++ toString via_size)
    ([wire_LP_D, wire_UP_D] ++ label)
    [(upO, pad), (lpO, pad), ((0, 0), Device)])

/-- The device loop of `components.make_vector_1xN`: one `make_ferro_device`
call per mesa size, failing at the first infeasible element. -/
def build_devs (mesas : List ℚ) (via : ℚ) :
    Except String (List (Cell × Point × Point)) :=
  match mesas with
  | [] => .ok []
  | m :: rest => do
    let d ← make_ferro_device m via (60, 40) false
    let ds ← build_devs rest via
    pure (d :: ds)

/-- `components.make_vector_1xN`.  Device `i` is referenced at
`(0, i*y_step)` with `y_step = pad_dim + pad_dim/4`; each iteration adds its
two pad references and two wires; after the loop one shared rail rectangle is
added on W1 using the loop variables leaked from the LAST iteration (Python's
`LP` and `i`).  For an empty size list Python crashes with a `NameError`
(`LP` was never bound), modelled as the error branch on `getLast?`. -/
def make_vector_1xN (padDim padSpacing : ℚ) (name : String) (mesa_sizes : List ℚ)
    (via_size : ℚ) : Except String Cell := do
  let pad ← make_lower_pad padDim none 30 true
  let y_step := padDim + padDim/4
  let devs ← build_devs mesa_sizes via_size
  match devs.getLast? with
  | none => .error "NameError: name LP is not defined"
  | some lastDev =>
    let vecName := "Vector" ++ toString mesa_sizes.length ++ "_M" ++
      String.intercalate "_" (mesa_sizes.map toString) ++ "_V" ++ toString via_size
    let lpx := lastDev.2.1.1 + padSpacing + padDim/2
    let shared_pad : Shape :=
      ⟨.poly (rectangle (padDim*2/3) (y_step * (mesa_sizes.length : ℚ) - padDim)
        (lpx, padSpacing + (y_step * ((mesa_sizes.length : ℚ) - 1) - padDim/2)/2)),
        (layersLD "W1").1, (layersLD "W1").2⟩
    let label := make_label name 40 (0, -padSpacing - padDim/2) false 50 0
    pure (.mk vecName
      ((devs.enum.flatMap fun e =>
        [make_wire (routePts (e.2.2.2.1, (e.1 : ℚ) * y_step + e.2.2.2.2)
            (e.2.2.2.1 - padSpacing - padDim/2, (e.1 : ℚ) * y_step + e.2.2.2.2) "-|")
          wire_width "W1",
         make_wire (routePts (e.2.2.1.1, (e.1 : ℚ) * y_step + e.2.2.1.2 + wire_width/2)
            (e.2.2.1.1 + padSpacing + padDim/2, (e.1 : ℚ) * y_step + e.2.2.1.2) "|-")
          wire_width "W1"]) ++ [shared_pad] ++ label)
      (devs.enum.flatMap fun e =>
        [((e.2.2.1.1 + padSpacing + padDim/2, (e.1 : ℚ) * y_step + e.2.2.1.2), pad),
         ((e.2.2.2.1 - padSpacing - padDim/2, (e.1 : ℚ) * y_step + e.2.2.2.2), pad),
         (((0 : ℚ), (e.1 : ℚ) * y_step), e.2.1)]))

/-- Characterisation of a successful `FED2T` call: the pad and device builds
succeed, and the result cell is fully determined by their outputs.  Its name
depends only on `mesa_size` and `via_size`. -/
theorem FED2T_ok (pd sp : ℚ) (l : String) (m v : ℚ) (s : Bool) (c : Cell)
    (h : FED2T pd sp l m v s = .ok c) :
    ∃ pad dev lower upper,
      make_lower_pad pd none 30 true = .ok pad ∧
      make_ferro_device m v (60, 40) s = .ok (dev, lower, upper) ∧
      c = Cell.mk ("2T_M" ++ toString m ++ "_V" ++ toString v)
        ([make_wire (routePts (lower.1, lower.2 + wire_width/2)
            (lower.1 + sp + pd/2, lower.2) "|-") wire_width "W1",
          make_wire (routePts (upper.1, upper.2)
            (upper.1 - sp - pd/2, upper.2) "-|") wire_width "W1"] ++
          make_label l 40 (0, -sp - pd/2) false 50 0)
        [((upper.1 - sp - pd/2, upper.2), pad),
         ((lower.1 + sp + pd/2, lower.2), pad),
         ((0, 0), dev)] := by
  unfold FED2T at h
  cases hp : make_lower_pad pd none 30 true with
  | error e =>
    rw [hp] at h
    simp [Bind.bind, Except.bind] at h
  | ok pad =>
    rw [hp] at h
    cases hd : make_ferro_device m v (60, 40) s with
    | error e =>
      rw [hd] at h
      simp [Bind.bind, Except.bind] at h
    | ok t =>
      obtain ⟨dev, lower, upper⟩ := t
      rw [hd] at h
      simp only [Bind.bind, Except.bind, pure, Except.pure, Except.ok.injEq] at h
      exact ⟨pad, dev, lower, upper, rfl, rfl, h.symm⟩

/-- The name and connection points of a successful `make_ferro_device`. -/
theorem make_ferro_device_ok_parts (m v w h : ℚ) (s : Bool)
    (t : Cell × Point × Point) (ht : make_ferro_device m v (w, h) s = .ok t) :
    t.1.name = ferroName m v s ∧ t.2.1 = (w/2 - v - 4*UVL, 0) ∧
    t.2.2 = (-w/2 + v + 4*UVL, 0) := by
  unfold make_ferro_device at ht
  by_cases hg : 2*v + 8*UVL + m + 2*UVL > w - 4*UVL
  · rw [if_pos hg] at ht
    cases ht
  · rw [if_neg hg] at ht
    injection ht with ht'
    subst ht'
    exact ⟨rfl, rfl, rfl⟩

/-- The short and non-short device cell names differ (the latter lacks the
`"_short"` suffix). -/
theorem ferroName_ne (m v : ℚ) (s1 s2 : Bool) (hs : s1 ≠ s2) :
    ferroName m v s1 ≠ ferroName m v s2 := by
  have hlen : ∀ x : String, (x ++ "_short").length = x.length + 6 := by
    intro x
    rw [String.length_append, show ("_short" : String).length = 6 from rfl]
  have hlen0 : ∀ x : String, (x ++ "").length = x.length := by
    intro x
    simp [String.length_append]
  cases s1 <;> cases s2 <;> first
    | exact absurd rfl hs
    | · intro h
        have := congrArg String.length h
        rw [show ferroName m v true =
          ("FerroelectricDevice_M" ++ toString (um_to_str m) ++
            "_V" ++ toString (um_to_str v)) ++ "_short" from rfl,
          show ferroName m v false =
          ("FerroelectricDevice_M" ++ toString (um_to_str m) ++
            "_V" ++ toString (um_to_str v)) ++ "" from rfl] at this
        rw [hlen, hlen0] at this
        omega

/-- Names only grow along the collector loop. -/
theorem names_grow : ∀ n (refs : List (Point × Cell)) (lib : List Cell)
    (nm : String), csizeList refs ≤ n → nm ∈ libNames lib →
    nm ∈ libNames (addRefs refs lib) := by
  intro n
  induction n using Nat.strong_induction_on with
  | _ n IH =>
    intro refs lib nm hle hnm
    cases refs with
    | nil => exact hnm
    | cons q rest =>
      obtain ⟨qp, qc⟩ := q
      have hq1 : 0 < csize qc := csize_pos qc
      have hsz : csizeList ((qp, qc) :: rest) = csize qc + csizeList rest := rfl
      have hrest : csizeList rest < n := by omega
      simp only [addRefs]
      by_cases hmem : qc.name ∈ lib.map Cell.name
      · rw [if_pos hmem]
        exact IH (csizeList rest) hrest rest lib nm le_rfl hnm
      · rw [if_neg hmem]
        have hstep : nm ∈ libNames (add_children qc lib) := by
          cases qc with
          | mk n2 s2 refs2 =>
            simp only [add_children]
            have hsz2 : csize (Cell.mk n2 s2 refs2) = 1 + csizeList refs2 := rfl
            refine IH (csizeList refs2) (by omega) refs2 _ nm le_rfl ?_
            simp only [libNames, List.map_append, List.mem_append]
            exact Or.inl hnm
        exact IH (csizeList rest) hrest rest _ nm le_rfl hstep

/-- After collecting `c`, the registry contains `c`'s name. -/
theorem name_mem_add_children (c : Cell) (lib : List Cell) :
    c.name ∈ libNames (add_children c lib) := by
  cases c with
  | mk n s refs =>
    simp only [add_children]
    refine names_grow (csizeList refs) refs _ _ le_rfl ?_
    simp [libNames, Cell.name]

/-! ## Claim C9: FED2T cell-name collision -/

/-- C9.  (1) Any two successful `FED2T` calls with equal `mesa_size` and
`via_size` return top-level cells with the identical name, whatever their
`name` labels and `short` flags.  (2) With different labels the cells carry
different shapes (the label shape differs).  (3) With different `short` flags
the referenced cells differ (the device cell name gains the `"_short"`
suffix).  (4) In the name-keyed registry, collecting a root that references
two same-named cells yields exactly the registry of the root referencing
only the first — the second is silently dropped. -/
theorem FED2T_name_collision :
    (∀ pd sp l1 l2 m v s1 s2 c1 c2,
      FED2T pd sp l1 m v s1 = .ok c1 → FED2T pd sp l2 m v s2 = .ok c2 →
      c1.name = c2.name) ∧
    (∀ pd sp l1 l2 m v s1 s2 c1 c2,
      FED2T pd sp l1 m v s1 = .ok c1 → FED2T pd sp l2 m v s2 = .ok c2 →
      l1 ≠ l2 → c1.shapes ≠ c2.shapes) ∧
    (∀ pd sp l1 l2 m v s1 s2 c1 c2,
      FED2T pd sp l1 m v s1 = .ok c1 → FED2T pd sp l2 m v s2 = .ok c2 →
      s1 ≠ s2 →
      c1.refs.map (fun pc => pc.2.name) ≠ c2.refs.map (fun pc => pc.2.name)) ∧
    (∀ (rootName : String) (p1 p2 : Point) (c1 c2 : Cell),
      c1.name = c2.name → c1.name ≠ rootName →
      add_children (.mk rootName [] [(p1, c1), (p2, c2)]) [] =
      add_children c1 [.mk rootName [] [(p1, c1), (p2, c2)]]) := by
  refine ⟨?_, ?_, ?_, ?_⟩
  · intro pd sp l1 l2 m v s1 s2 c1 c2 h1 h2
    obtain ⟨_, _, _, _, _, _, rfl⟩ := FED2T_ok pd sp l1 m v s1 c1 h1
    obtain ⟨_, _, _, _, _, _, rfl⟩ := FED2T_ok pd sp l2 m v s2 c2 h2
    rfl
  · intro pd sp l1 l2 m v s1 s2 c1 c2 h1 h2 hl
    obtain ⟨_, _, _, _, _, _, rfl⟩ := FED2T_ok pd sp l1 m v s1 c1 h1
    obtain ⟨_, _, _, _, _, _, rfl⟩ := FED2T_ok pd sp l2 m v s2 c2 h2
    intro heq
    simp only [Cell.shapes, make_label, List.cons_append, List.nil_append,
      List.cons.injEq, Shape.mk.injEq, Geom.textG.injEq] at heq
    exact hl heq.2.2.1.1.1
  · intro pd sp l1 l2 m v s1 s2 c1 c2 h1 h2 hs
    obtain ⟨pad1, dev1, lo1, up1, _, hd1, rfl⟩ := FED2T_ok pd sp l1 m v s1 c1 h1
    obtain ⟨pad2, dev2, lo2, up2, _, hd2, rfl⟩ := FED2T_ok pd sp l2 m v s2 c2 h2
    have hn1 := (make_ferro_device_ok_parts m v 60 40 s1 (dev1, lo1, up1) hd1).1
    have hn2 := (make_ferro_device_ok_parts m v 60 40 s2 (dev2, lo2, up2) hd2).1
    intro heq
    simp only [Cell.refs, List.map_cons, List.map_nil, List.cons.injEq] at heq
    have : dev1.name = dev2.name := heq.2.2.1
    rw [hn1, hn2] at this
    exact ferroName_ne m v s1 s2 hs this
  · intro rootName p1 p2 c1 c2 hname hroot
    show addRefs [(p1, c1), (p2, c2)] ([] ++ [Cell.mk rootName [] [(p1, c1), (p2, c2)]]) = _
    simp only [addRefs, List.nil_append]
    have hnm1 : ¬ c1.name ∈ [Cell.mk rootName [] [(p1, c1), (p2, c2)]].map Cell.name := by
      simp only [List.map_cons, List.map_nil, List.mem_singleton]
      exact hroot
    rw [if_neg hnm1]
    have hin : c2.name ∈
        (add_children c1 [Cell.mk rootName [] [(p1, c1), (p2, c2)]]).map Cell.name := by
      rw [← hname]
      exact name_mem_add_children c1 _
    rw [if_pos hin]

/-- Witness for C9: a plain and a shorted device of the same dimensions get
the same cell name with different shapes and different referenced cells, and
a root referencing both collects to the same registry as one referencing
only the first. -/
theorem FED2T_name_collision_witness :
    ∃ c1 c2,
      FED2T 100 10 "FE" 20 2 false = .ok c1 ∧
      FED2T 100 10 "SHORT" 20 2 true = .ok c2 ∧
      c1.name = c2.name ∧
      c1.shapes ≠ c2.shapes ∧
      c1.refs.map (fun pc => pc.2.name) ≠ c2.refs.map (fun pc => pc.2.name) ∧
      add_children (.mk "TOP" [] [((0, 0), c1), ((950, 0), c2)]) [] =
        add_children c1 [.mk "TOP" [] [((0, 0), c1), ((950, 0), c2)]] := by
  obtain ⟨pad, hpad⟩ := (pad_size_validation 100 100 30).2.1 (by norm_num [UVL])
  obtain ⟨dev1, bc1, tc1, hdev1⟩ :=
    (make_ferro_device_validation 20 2 60 40 false).2 (by norm_num [UVL])
  obtain ⟨dev2, bc2, tc2, hdev2⟩ :=
    (make_ferro_device_validation 20 2 60 40 true).2 (by norm_num [UVL])
  have hp' : make_lower_pad 100 none 30 true = .ok pad := hpad
  have hsucc1 : FED2T 100 10 "FE" 20 2 false = .ok (
      Cell.mk ("2T_M" ++ toString (20 : ℚ) ++ "_V" ++ toString (2 : ℚ))
        ([make_wire (routePts (bc1.1, bc1.2 + wire_width/2)
            (bc1.1 + 10 + 100/2, bc1.2) "|-") wire_width "W1",
          make_wire (routePts (tc1.1, tc1.2)
            (tc1.1 - 10 - 100/2, tc1.2) "-|") wire_width "W1"] ++
          make_label "FE" 40 (0, -10 - 100/2) false 50 0)
        [((tc1.1 - 10 - 100/2, tc1.2), pad),
         ((bc1.1 + 10 + 100/2, bc1.2), pad),
         ((0, 0), dev1)]) := by
    unfold FED2T
    rw [hp', hdev1]
    rfl
  have hsucc2 : FED2T 100 10 "SHORT" 20 2 true = .ok (
      Cell.mk ("2T_M" ++ toString (20 : ℚ) ++ "_V" ++ toString (2 : ℚ))
        ([make_wire (routePts (bc2.1, bc2.2 + wire_width/2)
            (bc2.1 + 10 + 100/2, bc2.2) "|-") wire_width "W1",
          make_wire (routePts (tc2.1, tc2.2)
            (tc2.1 - 10 - 100/2, tc2.2) "-|") wire_width "W1"] ++
          make_label "SHORT" 40 (0, -10 - 100/2) false 50 0)
        [((tc2.1 - 10 - 100/2, tc2.2), pad),
         ((bc2.1 + 10 + 100/2, bc2.2), pad),
         ((0, 0), dev2)]) := by
    unfold FED2T
    rw [hp', hdev2]
    rfl
  refine ⟨_, _, hsucc1, hsucc2,
    FED2T_name_collision.1 100 10 "FE" "SHORT" 20 2 false true _ _ hsucc1 hsucc2,
    FED2T_name_collision.2.1 100 10 "FE" "SHORT" 20 2 false true _ _ hsucc1 hsucc2
      (by decide),
    FED2T_name_collision.2.2.1 100 10 "FE" "SHORT" 20 2 false true _ _ hsucc1 hsucc2
      (by decide),
    FED2T_name_collision.2.2.2 "TOP" (0, 0) (950, 0) _ _
      (FED2T_name_collision.1 100 10 "FE" "SHORT" 20 2 false true _ _ hsucc1 hsucc2)
      ?_⟩
  intro hTop
  have := congrArg String.length hTop
  simp only [Cell.name, String.length_append] at this
  rw [show ("2T_M" : String).length = 4 from rfl,
    show ("_V" : String).length = 2 from rfl,
    show ("TOP" : String).length = 3 from rfl] at this
  omega

/-- A successful device loop produces one device per mesa size, every one
with the same two connection points (they depend only on `via` and the
default extent 60). -/
theorem build_devs_ok (mesas : List ℚ) (via : ℚ) (devs : List (Cell × Point × Point))
    (h : build_devs mesas via = .ok devs) :
    devs.length = mesas.length ∧
    ∀ d ∈ devs, d.2.1 = (60/2 - via - 4*UVL, 0) ∧ d.2.2 = (-60/2 + via + 4*UVL, 0) := by
  induction mesas generalizing devs with
  | nil =>
    simp only [build_devs, Except.ok.injEq] at h
    subst h
    exact ⟨rfl, fun d hd => absurd hd (List.not_mem_nil _)⟩
  | cons m rest ih =>
    simp only [build_devs] at h
    cases hd : make_ferro_device m via (60, 40) false with
    | error e =>
      rw [hd] at h
      simp [Bind.bind, Except.bind] at h
    | ok t =>
      rw [hd] at h
      cases hr : build_devs rest via with
      | error e =>
        rw [hr] at h
        simp [Bind.bind, Except.bind] at h
      | ok ds =>
        rw [hr] at h
        simp only [Bind.bind, Except.bind, pure, Except.pure, Except.ok.injEq] at h
        subst h
        obtain ⟨ihlen, ihmem⟩ := ih ds hr
        refine ⟨by simp [ihlen], ?_⟩
        intro d hdm
        rcases List.mem_cons.1 hdm with heq | hdm'
        · subst heq
          have hp := make_ferro_device_ok_parts m via 60 40 false d hd
          exact ⟨hp.2.1, hp.2.2⟩
        · exact ihmem d hdm'

/-- C7 (amended).  For every non-empty vector build whose pad and device
builds succeed, device `i` is referenced at vertical offset
`i * (pad_dim + pad_dim/4)`; every bottom pad is referenced at the common
x-coordinate `bottom.x + pad_device_spacing + pad_dim/2` (the bottom
connection point is the same for every device) at height `i * y_step`; and
after the loop one shared rail rectangle is added on the lower-wiring layer
W1 at that same x-coordinate, of width `pad_dim*2/3` and height
`y_step*N - pad_dim`, centred at
`y = pad_device_spacing + (y_step*(N-1) - pad_dim/2)/2` — NOT spanning the
full vertical extent of the bottom pads (see the counterexample). -/
theorem make_vector_1xN_layout (pd sp : ℚ) (nm : String) (mesas : List ℚ)
    (via : ℚ) (pad : Cell) (devs : List (Cell × Point × Point))
    (hpad : make_lower_pad pd none 30 true = .ok pad)
    (hdevs : build_devs mesas via = .ok devs)
    (hne : devs ≠ []) :
    ∃ c, make_vector_1xN pd sp nm mesas via = .ok c ∧
      (∀ i, (hi : i < devs.length) →
        (((0 : ℚ), (i : ℚ) * (pd + pd/4)), devs[i].1) ∈ c.refs) ∧
      (∀ i, (hi : i < devs.length) →
        ∃ q : Point, (q, pad) ∈ c.refs ∧
          q.1 = 60/2 - via - 4*UVL + sp + pd/2 ∧ q.2 = (i : ℚ) * (pd + pd/4)) ∧
      ((⟨.poly (rectangle (pd*2/3) ((pd + pd/4) * (mesas.length : ℚ) - pd)
          (60/2 - via - 4*UVL + sp + pd/2,
           sp + ((pd + pd/4) * ((mesas.length : ℚ) - 1) - pd/2)/2)),
         (layersLD "W1").1, (layersLD "W1").2⟩ : Shape) ∈ c.shapes) := by
  obtain ⟨last, hlast⟩ := Option.isSome_iff_exists.1 (List.getLast?_isSome.2 hne)
  have hlastmem : last ∈ devs := by
    obtain ⟨hne', heq⟩ := List.mem_getLast?_eq_getLast (l := devs) (x := last)
      (by simp [Option.mem_def, hlast])
    rw [heq]
    exact List.getLast_mem hne'
  obtain ⟨hlen, hparts⟩ := build_devs_ok mesas via devs hdevs
  have hlastbc : last.2.1 = (60/2 - via - 4*UVL, 0) := (hparts last hlastmem).1
  have hstep : make_vector_1xN pd sp nm mesas via = .ok (Cell.mk
      ("Vector" ++ toString mesas.length ++ "_M" ++
        String.intercalate "_" (mesas.map toString) ++ "_V" ++ toString via)
      ((devs.enum.flatMap fun e =>
          [make_wire (routePts (e.2.2.2.1, (e.1 : ℚ) * (pd + pd/4) + e.2.2.2.2)
              (e.2.2.2.1 - sp - pd/2, (e.1 : ℚ) * (pd + pd/4) + e.2.2.2.2) "-|")
            wire_width "W1",
           make_wire (routePts (e.2.2.1.1, (e.1 : ℚ) * (pd + pd/4) + e.2.2.1.2 + wire_width/2)
              (e.2.2.1.1 + sp + pd/2, (e.1 : ℚ) * (pd + pd/4) + e.2.2.1.2) "|-")
            wire_width "W1"]) ++
        [⟨.poly (rectangle (pd*2/3) ((pd + pd/4) * (mesas.length : ℚ) - pd)
            (last.2.1.1 + sp + pd/2, sp + ((pd + pd/4) * ((mesas.length : ℚ) - 1) - pd/2)/2)),
          (layersLD "W1").1, (layersLD "W1").2⟩] ++
        make_label nm 40 (0, -sp - pd/2) false 50 0)
      (devs.enum.flatMap fun e =>
        [((e.2.2.1.1 + sp + pd/2, (e.1 : ℚ) * (pd + pd/4) + e.2.2.1.2), pad),
         ((e.2.2.2.1 - sp - pd/2, (e.1 : ℚ) * (pd + pd/4) + e.2.2.2.2), pad),
         (((0 : ℚ), (e.1 : ℚ) * (pd + pd/4)), e.2.1)])) := by
    unfold make_vector_1xN
    rw [hpad, hdevs]
    show (match devs.getLast? with
      | none => Except.error "NameError: name LP is not defined"
      | some lastDev => _) = _
    rw [hlast]
    rfl
  refine ⟨_, hstep, ?_, ?_, ?_⟩
  · intro i hi
    have h1 : i < devs.enum.length := by simpa [List.enum_length] using hi
    have h2 : devs.enum[i] ∈ devs.enum := List.getElem_mem h1
    rw [List.getElem_enum] at h2
    simp only [Cell.refs]
    exact List.mem_flatMap.2 ⟨(i, devs[i]), h2, by simp⟩
  · intro i hi
    have h1 : i < devs.enum.length := by simpa [List.enum_length] using hi
    have h2 : devs.enum[i] ∈ devs.enum := List.getElem_mem h1
    rw [List.getElem_enum] at h2
    have hbc : devs[i].2.1 = (60/2 - via - 4*UVL, 0) :=
      (hparts devs[i] (List.getElem_mem hi)).1
    refine ⟨(devs[i].2.1.1 + sp + pd/2, (i : ℚ) * (pd + pd/4) + devs[i].2.1.2),
      ?_, ?_, ?_⟩
    · simp only [Cell.refs]
      exact List.mem_flatMap.2 ⟨(i, devs[i]), h2, by simp⟩
    · rw [hbc]
    · rw [hbc]
      ring
  · simp only [Cell.shapes]
    refine List.mem_append_left _ (List.mem_append_right _ ?_)
    rw [show last.2.1.1 = 60/2 - via - 4*UVL from by rw [hlastbc]]
    exact List.mem_singleton.2 rfl

/-- Shapes of a successfully built lower pad (with via): the W1 contact
octagon, two via octagons shrunk by `2*UVL`, and the W2 top octagon. -/
theorem make_lower_pad_ok (sx : ℚ) (sy : Option ℚ) (tol : ℚ) (c : Cell)
    (h : make_lower_pad sx sy tol true = .ok c) :
    c.shapes = [octS sx (sy.getD sx) (0, 0) (layersLD "W1"),
      octS (sx - 2*UVL) (sy.getD sx - 2*UVL) (0, 0) (layersLD "V2"),
      octS (sx - 2*UVL) (sy.getD sx - 2*UVL) (0, 0) (layersLD "V4"),
      octS sx (sy.getD sx) (0, 0) (layersLD "W2")] := by
  unfold make_lower_pad at h
  simp only [if_true] at h
  by_cases hc : min sx (sy.getD sx) - 4*UVL < tol
  · rw [if_pos hc] at h
    cases h
  · rw [if_neg hc] at h
    injection h with h'
    subst h'
    rfl

/-- Witness for the amended C7 theorem at `pad_dim = 100`, spacing 10, two
mesas of size 5 and `via_size = 2`. -/
theorem make_vector_1xN_layout_witness :
    ∃ c pad dcell,
      make_lower_pad 100 none 30 true = .ok pad ∧
      make_vector_1xN 100 10 "V" [5, 5] 2 = .ok c ∧
      (((0 : ℚ), ((1 : ℕ) : ℚ) * (100 + 100/4)), dcell) ∈ c.refs ∧
      (∃ q : Point, (q, pad) ∈ c.refs ∧
        q.1 = 60/2 - 2 - 4*UVL + 10 + 100/2 ∧
        q.2 = ((1 : ℕ) : ℚ) * (100 + 100/4)) ∧
      ((⟨.poly (rectangle (100*2/3) ((100 + 100/4) * ((([5, 5] : List ℚ).length : ℕ) : ℚ) - 100)
          (60/2 - 2 - 4*UVL + 10 + 100/2,
           10 + ((100 + 100/4) * (((([5, 5] : List ℚ).length : ℕ) : ℚ) - 1) - 100/2)/2)),
         (layersLD "W1").1, (layersLD "W1").2⟩ : Shape) ∈ c.shapes) := by
  obtain ⟨pad, hpad⟩ := (pad_size_validation 100 100 30).2.1 (by norm_num [UVL])
  have hpad' : make_lower_pad 100 none 30 true = .ok pad := hpad
  obtain ⟨dev, bc, tc, hdev⟩ :=
    (make_ferro_device_validation 5 2 60 40 false).2 (by norm_num [UVL])
  have hbd : build_devs [5, 5] 2 = .ok [(dev, bc, tc), (dev, bc, tc)] := by
    simp only [build_devs, hdev, Bind.bind, Except.bind, pure, Except.pure]
  obtain ⟨c, hc, hdref, hpref, hrail⟩ :=
    make_vector_1xN_layout 100 10 "V" [5, 5] 2 pad [(dev, bc, tc), (dev, bc, tc)]
      hpad' hbd (by simp)
  refine ⟨c, pad, dev, hpad', hc, ?_, ?_, hrail⟩
  · exact hdref 1 (by norm_num)
  · exact hpref 1 (by norm_num)

/-- C7 counterexample.  At `pad_dim = 100`, spacing 10, one mesa of size 5
and `via_size = 2`: the single bottom pad is referenced at height 0 and its
contact octagon reaches down to absolute `y = -50`, but the shared rail is a
rectangle spanning only `y ∈ [-55/2, -5/2]`; since `-55/2 > -50` the rail
does NOT span the full vertical extent of the bottom pads, refuting the
claim as stated. -/
theorem vector_rail_not_spanning :
    ∃ c pad,
      make_vector_1xN 100 10 "V" [5] 2 = .ok c ∧
      make_lower_pad 100 none 30 true = .ok pad ∧
      (∃ q : Point, (q, pad) ∈ c.refs ∧ q.2 = 0) ∧
      octS 100 100 (0, 0) (layersLD "W1") ∈ pad.shapes ∧
      ((0 + 2*100*(1/6) : ℚ), (0 - 100/2 : ℚ)) ∈ octagon 100 100 (0, 0) (1/6) (1/6) ∧
      ((0 : ℚ) + (0 - 100/2) = -50) ∧
      (∃ verts, (⟨.poly verts, (layersLD "W1").1, (layersLD "W1").2⟩ : Shape) ∈ c.shapes ∧
        polyBBox verts = some ((140/3, -55/2), (340/3, -5/2))) ∧
      ¬ ((-55/2 : ℚ) ≤ -50) := by
  obtain ⟨pad, hpad⟩ := (pad_size_validation 100 100 30).2.1 (by norm_num [UVL])
  have hpad' : make_lower_pad 100 none 30 true = .ok pad := hpad
  obtain ⟨dev, bc, tc, hdev⟩ :=
    (make_ferro_device_validation 5 2 60 40 false).2 (by norm_num [UVL])
  have hbd : build_devs [5] 2 = .ok [(dev, bc, tc)] := by
    simp only [build_devs, hdev, Bind.bind, Except.bind, pure, Except.pure]
  obtain ⟨c, hc, hdref, hpref, hrail⟩ :=
    make_vector_1xN_layout 100 10 "V" [5] 2 pad [(dev, bc, tc)] hpad' hbd (by simp)
  obtain ⟨q, hq, hq1, hq2⟩ := hpref 0 (by norm_num)
  refine ⟨c, pad, hc, hpad', ⟨q, hq, by rw [hq2]; norm_num⟩, ?_, ?_, by norm_num, ?_, by norm_num⟩
  · rw [make_lower_pad_ok 100 none 30 pad hpad']
    simp [Option.getD]
  · simp [octagon]
  · refine ⟨_, hrail, ?_⟩
    simp only [rectangle, rectVerts, polyBBox, List.foldl, pmin, pmax,
      Option.some.injEq, Prod.mk.injEq, List.length_cons, List.length_nil]
    norm_num [UVL, inf_eq_min, sup_eq_max, min_def, max_def]
